import Mathlib

/-!
Verification development for the sandbox-data seeding scheduler
(`src/seed/events.ts`, helpers in `src/seed/config.ts`).

Modelling conventions:

* Timestamps.  `getTimestampDaysAgo(daysAgo, hoursOffset)` in the source
  produces an ISO string for (today's midnight − `daysAgo` days) with the
  hour set to `10 + hoursOffset` (JavaScript `setHours` rolls an hour
  count ≥ 24 into the following days).  Comparison of such ISO strings is
  exactly comparison of the instants, so we model a timestamp as the
  integer number of hours relative to today's midnight:
  `10 + hoursOffset − 24 * daysAgo`.
* JavaScript numbers.  All quantities involved are small non-negative
  integers; `Math.ceil(a / b * c)` and `Math.floor` combinations on such
  values are modelled by exact rational/integer arithmetic
  (`ceilNat`, natural division).
* `question.kcId` is a JS number used as a truthy/falsy flag
  (`if (!question.kcId) return;`); we model it as a `Nat` where `0` is
  the falsy "no knowledge component" case.
* Database writes are modelled as emitted `Event` values; the run result
  is the list of all events in emission order.  The `dailyStats` map in
  the source is used only for console logging and is not modelled.
* `createMasteryCheckResponse` inserts a response row (when the mastery
  check has a question); it is modelled as a `masteryResponse` event.
-/

namespace SeedSandbox

/-- A question of a lesson (`LessonQuestion` in `src/seed/config.ts`).
`kcId = 0` models an absent knowledge component (falsy in the source). -/
structure LessonQuestion where
  id : Nat
  kcId : Nat
  assignmentQuestionId : Nat
  deriving DecidableEq, Repr

/-- A lesson with its ordered questions (`LessonData` in
`src/seed/config.ts`; payload-only fields such as titles and the paired
mastery-check ids are omitted, the mastery events of a lesson are tagged
with the lesson's own id). -/
structure LessonData where
  lessonId : Nat
  questions : List LessonQuestion
  deriving DecidableEq, Repr

/-- Default value used for (never reached) out-of-bounds list reads. -/
def defaultLessonData : LessonData := ⟨0, []⟩

/-- Kinds of emitted records: LESSON_QUESTION_SHOWN, QUESTION_ANSWERED,
LESSON_COMPLETED, the mastery-check response row, and the mastery check's
ASSIGNMENT_COMPLETED event. -/
inductive EType where
  | shown
  | answered
  | lessonCompleted
  | masteryResponse
  | masteryCompleted
  deriving DecidableEq, Repr

/-- An emitted event: kind, enrollment id, owning lesson id, question
index (for question events), and timestamp in hours relative to today's
midnight. -/
structure Event where
  etype : EType
  eid : Nat
  lid : Nat
  q : Option Nat
  time : Int
  deriving DecidableEq, Repr

/-- `getTimestampDaysAgo` from `src/seed/config.ts`, as hours relative to
today's midnight. -/
def getTimestampDaysAgo (daysAgo hoursOffset : Nat) : Int :=
  10 + (hoursOffset : Int) - 24 * (daysAgo : Int)

/-- Ceiling division on naturals: `ceilNat a b = ⌈a / b⌉` for `b > 0`. -/
def ceilNat (a b : Nat) : Nat := (a + b - 1) / b

/-- `Math.ceil((moduleLessonCount / totalLessons) * workingDays.length)`
(`src/seed/events.ts:70`), with exact arithmetic: `⌈c·W/T⌉`. -/
def moduleDayCount (c T W : Nat) : Nat := ceilNat (c * W) T

/-- The recursive part of the module/day window allocation
(`src/seed/events.ts:66`–`74`): walk the modules in order, each taking
`moduleDayCount` days (clamped to the end of the pool) off the front of
the remaining working days.  Returns the windows and the final
`dayIndex`. -/
def allocGo (T W : Nat) (wd : List Nat) : List Nat → Nat → List (List Nat) × Nat
  | [], dayIndex => ([], dayIndex)
  | c :: rest, dayIndex =>
    let endIndex := min (dayIndex + moduleDayCount c T W) W
    let r := allocGo T W wd rest endIndex
    ((wd.take endIndex).drop dayIndex :: r.1, r.2)

/-- `moduleWorkingDays[moduleWorkingDays.length - 1].push(...)`
(`src/seed/events.ts:76`–`78`): append the leftover days to the last
window. -/
def appendLeftover (extra : List Nat) : List (List Nat) → List (List Nat)
  | [] => []
  | [w] => [w ++ extra]
  | w :: rest => w :: appendLeftover extra rest

/-- The module/day window allocator (`src/seed/events.ts:65`–`78`).
When the total lesson count is zero the source's float arithmetic makes
every `endIndex` NaN, every slice empty, and suppresses the leftover
append (`NaN < length` is false), so every window is empty. -/
def allocateModuleDays (counts : List Nat) (wd : List Nat) : List (List Nat) :=
  if counts.sum = 0 then counts.map (fun _ => [])
  else if (allocGo counts.sum wd.length wd counts 0).2 < wd.length then
    appendLeftover (wd.drop (allocGo counts.sum wd.length wd counts 0).2)
      (allocGo counts.sum wd.length wd counts 0).1
  else (allocGo counts.sum wd.length wd counts 0).1

/-- `getNextWorkingDay` (`src/seed/events.ts:104`–`110`).  JavaScript
`indexOf` returns −1 when absent; `List.indexOf` returns the length, and
the absent test is adjusted accordingly. -/
def getNextWorkingDay (currentDayOffset : Nat) (moduleDays : List Nat) : Nat :=
  let currentIndex := moduleDays.indexOf currentDayOffset
  if currentIndex = moduleDays.length ∨ currentIndex = moduleDays.length - 1 then
    max 1 (currentDayOffset - 1)
  else
    moduleDays.getD (currentIndex + 1) 0

/-- The completion rate of student `i` (`src/seed/events.ts:117`–`126`),
in tenths: rates 1.0, 0.8, 0.6, 0.4, 0.2 cycled by `i % 5`, with the
(unreachable) `default: 0.5` branch. -/
def completionRateNum (i : Nat) : Nat :=
  match i % 5 with
  | 0 => 10
  | 1 => 8
  | 2 => 6
  | 3 => 4
  | 4 => 2
  | _ => 5

/-- `Math.ceil(moduleLessons.length * completionRate)`
(`src/seed/events.ts:136`), with the rate in tenths. -/
def lessonsToCompleteInModule (moduleLessonCount i : Nat) : Nat :=
  ceilNat (moduleLessonCount * completionRateNum i) 10

/-- `Math.floor((i / enrollments.length) * (moduleDays.length * 0.3))`
(`src/seed/events.ts:141`), with exact arithmetic:
`⌊i·L·3 / (N·10)⌋`. -/
def startDayIndexOf (i N L : Nat) : Nat := i * (L * 3) / (N * 10)

/-- `(i + lessonIdx + moduleIndex) % 10 < 3 && totalQuestions >= 2`
(`src/seed/events.ts:156`), named after the spec's operation. -/
def shouldSplitLesson (i lessonIdx moduleIndex qCount : Nat) : Prop :=
  (i + lessonIdx + moduleIndex) % 10 < 3 ∧ 2 ≤ qCount

instance (i l m q : Nat) : Decidable (shouldSplitLesson i l m q) := by
  unfold shouldSplitLesson; infer_instance

/-- `(i + lessonIdx + moduleIndex) % 5 < 2` (`src/seed/events.ts:206`),
named after the spec's operation. -/
def shouldDelayMasteryCheck (i lessonIdx moduleIndex : Nat) : Prop :=
  (i + lessonIdx + moduleIndex) % 5 < 2

instance (i l m : Nat) : Decidable (shouldDelayMasteryCheck i l m) := by
  unfold shouldDelayMasteryCheck; infer_instance

/-- `createQuestionShownEvent` (`src/seed/events.ts:435`): suppressed
when the question has no knowledge component. -/
def createQuestionShownEvent (eid lid : Nat) (qu : LessonQuestion) (qIdx : Nat)
    (t : Int) : List Event :=
  if qu.kcId = 0 then [] else [⟨EType.shown, eid, lid, some qIdx, t⟩]

/-- `createQuestionAnsweredEvent` (`src/seed/events.ts:464`): always
emitted. -/
def createQuestionAnsweredEvent (eid lid : Nat) (qIdx : Nat) (t : Int) : List Event :=
  [⟨EType.answered, eid, lid, some qIdx, t⟩]

/-- One pass of the question loops (`src/seed/events.ts:171`–`185` and
`240`–`254`): for the given sub-list of questions, starting at absolute
question index `qIdx` and hour offset `h`, emit shown (when a knowledge
component is present) and answered events at
`getTimestampDaysAgo d h`. -/
def emitQuestionRange (eid lid : Nat) : List LessonQuestion → Nat → Nat → Nat → List Event
  | [], _, _, _ => []
  | qu :: rest, qIdx, h, d =>
    createQuestionShownEvent eid lid qu qIdx (getTimestampDaysAgo d h) ++
    createQuestionAnsweredEvent eid lid qIdx (getTimestampDaysAgo d h) ++
    emitQuestionRange eid lid rest (qIdx + 1) (h + 1) d

/-- `createMasteryCheckResponse` + `createMasteryCheckCompletedEvent`
(`src/seed/events.ts:217`–`218`, `273`–`274`, `289`–`290`), both at the
same timestamp. -/
def masteryEvents (eid lid : Nat) (t : Int) : List Event :=
  [⟨EType.masteryResponse, eid, lid, none, t⟩,
   ⟨EType.masteryCompleted, eid, lid, none, t⟩]

/-- A queued delayed mastery check (`PendingMasteryCheck`,
`src/seed/events.ts:84`–`89`). -/
structure PendingMasteryCheck where
  eid : Nat
  lesson : LessonData
  scheduledDayOffset : Nat
  moduleIndex : Nat
  deriving DecidableEq, Repr

/-- A queued second half of a split lesson (`PartialLessonProgress`,
`src/seed/events.ts:93`–`100`). -/
structure PartialLessonProgress where
  eid : Nat
  lesson : LessonData
  questionsCompleted : Nat
  scheduledDayOffset : Nat
  moduleIndex : Nat
  lessonIndex : Nat
  deriving DecidableEq, Repr

/-- Accumulated output of the main scheduling pass: emitted events and
the two deferred-work queues. -/
structure SeedAcc where
  events : List Event
  partials : List PartialLessonProgress
  pendings : List PendingMasteryCheck
  deriving DecidableEq, Repr

/-- Concatenate two accumulators (loop iterations emit/push in
order). -/
def SeedAcc.app (a b : SeedAcc) : SeedAcc :=
  ⟨a.events ++ b.events, a.partials ++ b.partials, a.pendings ++ b.pendings⟩

/-- The body of the per-lesson loop (`src/seed/events.ts:151`–`224`) for
student index `i`, module index `m`, lesson index `lessonIdx`: decide the
split, emit the day-1 questions, then either queue a
`PartialLessonProgress` (split) or emit the completion and either queue
or emit the mastery check.  Returns the emissions, the queue pushes, and
the updated `dayIdxOffset`. -/
def processLesson (i m lessonIdx eid : Nat) (lesson : LessonData)
    (availableDays moduleDays : List Nat) (daysPerLesson dayIdxOffset : Nat) :
    SeedAcc × Nat :=
  let totalQuestions := lesson.questions.length
  let questionsDay1 :=
    if shouldSplitLesson i lessonIdx m totalQuestions then totalQuestions / 2
    else totalQuestions
  let questionsDay2 :=
    if shouldSplitLesson i lessonIdx m totalQuestions then totalQuestions - questionsDay1
    else 0
  let day1Idx := min dayIdxOffset (availableDays.length - 1)
  let day1Offset := availableDays.getD day1Idx 0
  let qEvents := emitQuestionRange eid lesson.lessonId (lesson.questions.take questionsDay1)
    0 0 day1Offset
  if shouldSplitLesson i lessonIdx m totalQuestions ∧ 0 < questionsDay2 then
    (⟨qEvents,
      [⟨eid, lesson, questionsDay1, getNextWorkingDay day1Offset availableDays, m, lessonIdx⟩],
      []⟩,
     dayIdxOffset + 2)
  else
    let completedTimestamp := getTimestampDaysAgo day1Offset questionsDay1
    let completedEvents : List Event :=
      [⟨EType.lessonCompleted, eid, lesson.lessonId, none, completedTimestamp⟩]
    if shouldDelayMasteryCheck i lessonIdx m ∧ 1 < day1Offset then
      (⟨qEvents ++ completedEvents, [],
        [⟨eid, lesson, getNextWorkingDay day1Offset moduleDays, m⟩]⟩,
       dayIdxOffset + daysPerLesson)
    else
      (⟨qEvents ++ completedEvents ++ masteryEvents eid lesson.lessonId completedTimestamp,
        [], []⟩,
       dayIdxOffset + daysPerLesson)

/-- The per-lesson loop (`src/seed/events.ts:151`): `remaining` counted
down from `lessonsToCompleteInModule`, `lessonIdx` counted up from 0,
`dayIdxOffset` threaded through. -/
def lessonLoop (i m eid : Nat) (lessons : List LessonData)
    (availableDays moduleDays : List Nat) (daysPerLesson : Nat) :
    Nat → Nat → Nat → SeedAcc
  | _, 0, _ => ⟨[], [], []⟩
  | lessonIdx, remaining + 1, dayIdxOffset =>
    let r := processLesson i m lessonIdx eid (lessons.getD lessonIdx defaultLessonData)
      availableDays moduleDays daysPerLesson dayIdxOffset
    SeedAcc.app r.1
      (lessonLoop i m eid lessons availableDays moduleDays daysPerLesson
        (lessonIdx + 1) remaining r.2)

/-- The per-module body (`src/seed/events.ts:129`–`225`): skip a module
with an empty day window, a zero lesson assignment, or an empty
post-stagger window; otherwise run the lesson loop. -/
def processModule (i N eid m : Nat) (moduleLessons : List LessonData)
    (moduleDays : List Nat) : SeedAcc :=
  if moduleDays.length = 0 then ⟨[], [], []⟩
  else
    let cnt := lessonsToCompleteInModule moduleLessons.length i
    if cnt = 0 then ⟨[], [], []⟩
    else
      let availableDays := moduleDays.drop (startDayIndexOf i N moduleDays.length)
      if availableDays.length = 0 then ⟨[], [], []⟩
      else
        let daysPerLesson := max 1 (availableDays.length / cnt)
        lessonLoop i m eid moduleLessons availableDays moduleDays daysPerLesson 0 cnt 0

/-- The module loop for one student (`src/seed/events.ts:129`). -/
def moduleLoop (i N eid : Nat) (windows : List (List Nat)) :
    Nat → List (List LessonData) → SeedAcc
  | _, [] => ⟨[], [], []⟩
  | m, ml :: rest =>
    SeedAcc.app (processModule i N eid m ml (windows.getD m []))
      (moduleLoop i N eid windows (m + 1) rest)

/-- The student loop (`src/seed/events.ts:113`): student index `i`
paired with the enrollment id list. -/
def studentLoop (N : Nat) (lessonsByModule : List (List LessonData))
    (windows : List (List Nat)) : Nat → List Nat → SeedAcc
  | _, [] => ⟨[], [], []⟩
  | i, eid :: rest =>
    SeedAcc.app (moduleLoop i N eid windows 0 lessonsByModule)
      (studentLoop N lessonsByModule windows (i + 1) rest)

/-- The body of the split-lesson continuation pass
(`src/seed/events.ts:229`–`277`): emit the remaining questions and the
completion at the scheduled day, then either queue a
`PendingMasteryCheck` (note the source uses
`(partial.lessonIndex + moduleIndex) % 5 < 2`, without the student
index) or emit the mastery check immediately. -/
def processContinuation (p : PartialLessonProgress)
    (moduleWorkingDays : List (List Nat)) : List Event × List PendingMasteryCheck :=
  let moduleDays := moduleWorkingDays.getD p.moduleIndex []
  let qEvents := emitQuestionRange p.eid p.lesson.lessonId
    (p.lesson.questions.drop p.questionsCompleted) p.questionsCompleted 0
    p.scheduledDayOffset
  let completedTimestamp :=
    getTimestampDaysAgo p.scheduledDayOffset (p.lesson.questions.length - p.questionsCompleted)
  let completedEvents : List Event :=
    [⟨EType.lessonCompleted, p.eid, p.lesson.lessonId, none, completedTimestamp⟩]
  if (p.lessonIndex + p.moduleIndex) % 5 < 2 ∧ 1 < p.scheduledDayOffset then
    (qEvents ++ completedEvents,
     [⟨p.eid, p.lesson, getNextWorkingDay p.scheduledDayOffset moduleDays, p.moduleIndex⟩])
  else
    (qEvents ++ completedEvents ++
       masteryEvents p.eid p.lesson.lessonId completedTimestamp,
     [])

/-- The continuation pass over the queued split lessons, in queue
order. -/
def continuationLoop (windows : List (List Nat)) :
    List PartialLessonProgress → List Event × List PendingMasteryCheck
  | [] => ([], [])
  | p :: rest =>
    let r := processContinuation p windows
    let r2 := continuationLoop windows rest
    (r.1 ++ r2.1, r.2 ++ r2.2)

/-- The pending-mastery-check drain (`src/seed/events.ts:280`–`292`):
response and ASSIGNMENT_COMPLETED at the scheduled day with the fixed
intra-day hour offset 2. -/
def processPending (pd : PendingMasteryCheck) : List Event :=
  masteryEvents pd.eid pd.lesson.lessonId (getTimestampDaysAgo pd.scheduledDayOffset 2)

/-- The full event-seeding run `seedProgressEventsForGroup`
(`src/seed/events.ts:41`–`306`): allocate the module windows, run the
per-student walk, drain the split continuations, then drain the pending
mastery checks (main-pass pushes first, continuation-pass pushes after).
`workingDays` is the weekend-filtered descending day-offset list computed
at `src/seed/events.ts:54`–`61`; it is a parameter here because it
depends on the ambient calendar.  (If `lessonsByModule` is empty but
`workingDays` is not, the source throws on
`moduleWorkingDays[-1].push`; the model emits nothing, which keeps every
event-level statement vacuously intact.) -/
def seedProgressEventsForGroup (enrollments : List Nat)
    (lessonsByModule : List (List LessonData)) (workingDays : List Nat) : List Event :=
  let windows := allocateModuleDays (lessonsByModule.map List.length) workingDays
  let mainAcc := studentLoop enrollments.length lessonsByModule windows 0 enrollments
  let contRes := continuationLoop windows mainAcc.partials
  mainAcc.events ++ contRes.1 ++ (mainAcc.pendings ++ contRes.2).flatMap processPending

/-- The split-lesson queue produced by the main pass of a run (used to
state properties of the continuation pass on reachable entries). -/
def runPartials (enrollments : List Nat)
    (lessonsByModule : List (List LessonData)) (workingDays : List Nat) :
    List PartialLessonProgress :=
  (studentLoop enrollments.length lessonsByModule
    (allocateModuleDays (lessonsByModule.map List.length) workingDays) 0 enrollments).partials

/-- The day offset a lesson iteration schedules its first batch on. -/
def day1OffsetOf (avail : List Nat) (off : Nat) : Nat :=
  avail.getD (min off (avail.length - 1)) 0

/-- The 2-question lesson of the C3 counterexample run. -/
def ceLesson : LessonData := ⟨200, [⟨1, 1, 1⟩, ⟨2, 1, 2⟩]⟩

/-- Module layout of the C3 counterexample run: nine empty modules, then
one with a single 2-question lesson (module index 9). -/
def ceModules : List (List LessonData) :=
  [[], [], [], [], [], [], [], [], [], [ceLesson]]

/-- The 4-question lesson of the C1 counterexample run (all questions
have knowledge components). -/
def c1Lesson : LessonData := ⟨100, [⟨1, 1, 1⟩, ⟨2, 1, 2⟩, ⟨3, 1, 3⟩, ⟨4, 1, 4⟩]⟩

/-! ## Specification vocabulary

The ordering invariant of the spec is about the events of one
(enrollment, lesson) pair; events are grouped by their (enrollment id,
lesson id) key. -/

/-- The (enrollment, lesson) key of an event. -/
def keyOf (e : Event) : Nat × Nat := (e.eid, e.lid)

/-- The (enrollment, lesson) key of a split-lesson queue entry. -/
def pkey (p : PartialLessonProgress) : Nat × Nat := (p.eid, p.lesson.lessonId)

/-- The (enrollment, lesson) key of a pending-mastery-check entry. -/
def dkey (pd : PendingMasteryCheck) : Nat × Nat := (pd.eid, pd.lesson.lessonId)

/-- The causal-ordering relation of the spec between two events of the
same (enrollment, lesson) pair: shown(q) precedes answered(q), answered(q)
precedes shown(q+1), every answered precedes the lesson completion, and
the lesson completion precedes the mastery-check completion. -/
def rel (a b : Event) : Prop :=
  (a.etype = EType.shown ∧ b.etype = EType.answered ∧ a.q = b.q) ∨
  (a.etype = EType.answered ∧ b.etype = EType.shown ∧ a.q ≠ none ∧
     b.q = a.q.map (fun n => n + 1)) ∨
  (a.etype = EType.answered ∧ b.etype = EType.lessonCompleted) ∨
  (a.etype = EType.lessonCompleted ∧ b.etype = EType.masteryCompleted)

instance (a b : Event) : Decidable (rel a b) := by
  unfold rel; infer_instance

/-- The ordering invariant: any two emitted events of the same
(enrollment, lesson) pair that stand in the causal relation `rel` carry
non-decreasing timestamps. -/
def ordered (evs : List Event) : Prop :=
  ∀ a ∈ evs, ∀ b ∈ evs, keyOf a = keyOf b → rel a b → a.time ≤ b.time

instance (evs : List Event) : Decidable (ordered evs) := by
  unfold ordered; infer_instance

/-- Cross-list form of `ordered`: key-equal pairs drawn from the two
lists (in either order) respect the causal relation. -/
def crossOrd (A B : List Event) : Prop :=
  ∀ a ∈ A, ∀ b ∈ B, keyOf a = keyOf b →
    (rel a b → a.time ≤ b.time) ∧ (rel b a → b.time ≤ a.time)

/-- What the main pass guarantees about a queued split continuation `p`
relative to the events `E` emitted so far: the first-half question count
is small, and every already-emitted event of `p`'s pair is a question
event of the first half, emitted on a single day strictly later (larger
offset) than the continuation's scheduled day. -/
def partialSpec (E : List Event) (p : PartialLessonProgress) : Prop :=
  p.questionsCompleted ≤ 25 ∧
  p.lesson.questions.length - p.questionsCompleted ≤ 26 ∧
  ∃ d, p.scheduledDayOffset < d ∧
    ∀ e ∈ E, keyOf e = pkey p →
      (e.etype = EType.shown ∨ e.etype = EType.answered) ∧
      ∃ q, e.q = some q ∧ q < p.questionsCompleted ∧
        e.time = getTimestampDaysAgo d q

/-- What the scheduler guarantees about a queued pending mastery check
`pd` relative to the events `E` emitted so far: every already-emitted
lesson completion of `pd`'s pair precedes the drain timestamp
(scheduled day, hour offset 2). -/
def pendingSpec (E : List Event) (pd : PendingMasteryCheck) : Prop :=
  ∀ e ∈ E, keyOf e = dkey pd → e.etype = EType.lessonCompleted →
    e.time ≤ getTimestampDaysAgo pd.scheduledDayOffset 2

/-! ## Basic lemmas -/

theorem getTimestampDaysAgo_le {d1 h1 d2 h2 : Nat} :
    getTimestampDaysAgo d1 h1 ≤ getTimestampDaysAgo d2 h2 ↔
      h1 + 24 * d2 ≤ h2 + 24 * d1 := by
  unfold getTimestampDaysAgo
  omega

theorem indexOf_le_of_get_eq {c : Nat} :
    ∀ {s : List Nat} {k : Nat} (h : k < s.length), s.get ⟨k, h⟩ = c → s.indexOf c ≤ k
  | a :: t, 0, _, hc => by
    simp only [List.get] at hc
    simp [List.indexOf_cons_eq _ hc]
  | a :: t, k + 1, h, hc => by
    by_cases ha : a = c
    · simp [List.indexOf_cons_eq _ ha]
    · have := indexOf_le_of_get_eq (s := t) (k := k) (by simpa using h) (by simpa using hc)
      rw [List.indexOf_cons_ne _ ha]
      omega

/-- On a strictly descending day list, the next working day of an offset
`c ≥ 2` is strictly smaller (closer to the present) than `c`: the in-list
successor is smaller by descending order, and the fallback is
`max 1 (c-1) = c-1`. -/
theorem getNextWorkingDay_lt {c : Nat} {s : List Nat}
    (hdesc : s.Pairwise (fun a b => b < a)) (hc : 2 ≤ c) :
    getNextWorkingDay c s < c := by
  unfold getNextWorkingDay
  by_cases hcond : s.indexOf c = s.length ∨ s.indexOf c = s.length - 1
  · rw [if_pos hcond]
    have h1 : max 1 (c - 1) = c - 1 := Nat.max_eq_right (by omega)
    omega
  · rw [if_neg hcond]
    push_neg at hcond
    have hlen : s.indexOf c < s.length := lt_of_le_of_ne List.indexOf_le_length hcond.1
    have hlt : s.indexOf c + 1 < s.length := by omega
    have hget : s.get ⟨s.indexOf c, hlen⟩ = c := List.indexOf_get hlen
    have hpw := List.pairwise_iff_get.mp hdesc ⟨s.indexOf c, hlen⟩ ⟨s.indexOf c + 1, hlt⟩
      (by exact Nat.lt_succ_self _)
    simp only [List.get_eq_getElem, Fin.getElem_fin] at hpw hget
    rw [List.getD_eq_getElem s 0 hlt]
    omega

/-- Claim C6: `nextWorkingDay(c, s)` returns the element of `s`
immediately following (the first occurrence of) `c` when `c` occurs in
`s` at a non-final position, and `max 1 (c-1)` when `c` is absent from
`s` or its occurrence is the last element. -/
theorem nextWorkingDay_spec (c : Nat) (s : List Nat) :
    ((∃ k, ∃ hk : k < s.length, s.get ⟨k, hk⟩ = c ∧ k + 1 < s.length) →
       getNextWorkingDay c s = s.getD (s.indexOf c + 1) 0) ∧
    (c ∉ s → getNextWorkingDay c s = max 1 (c - 1)) ∧
    (s.indexOf c = s.length - 1 → getNextWorkingDay c s = max 1 (c - 1)) := by
  refine ⟨?_, ?_, ?_⟩
  · rintro ⟨k, hk, hck, hk1⟩
    have hmem : c ∈ s := hck ▸ s.get_mem k hk
    have hidx : s.indexOf c < s.length := List.indexOf_lt_length.mpr hmem
    have hle : s.indexOf c ≤ k := indexOf_le_of_get_eq hk hck
    unfold getNextWorkingDay
    rw [if_neg (by omega)]
  · intro h
    unfold getNextWorkingDay
    rw [if_pos (Or.inl (List.indexOf_eq_length.mpr h))]
  · intro h
    unfold getNextWorkingDay
    rw [if_pos (Or.inr h)]

/-- Witness for C6 at concrete inputs: in `[7, 5, 3]`, the successor of
5 is 3, an absent offset 9 falls back to 8, and the final element 3
falls back to 2. -/
theorem nextWorkingDay_spec_witness :
    getNextWorkingDay 5 [7, 5, 3] = 3 ∧ getNextWorkingDay 9 [7, 5, 3] = 8 ∧
      getNextWorkingDay 3 [7, 5, 3] = 2 := by
  refine ⟨?_, ?_, ?_⟩
  · exact ((nextWorkingDay_spec 5 [7, 5, 3]).1 ⟨1, by decide, by decide, by decide⟩).trans
      (by decide)
  · exact ((nextWorkingDay_spec 9 [7, 5, 3]).2.1 (by decide)).trans (by decide)
  · exact ((nextWorkingDay_spec 3 [7, 5, 3]).2.2 (by decide)).trans (by decide)

/-! ## The module/day window allocator -/

theorem ceilNat_eq_ceil_div (a b : Nat) (hb : 0 < b) :
    ((ceilNat a b : Nat) : Int) = Int.ceil ((a : ℚ) / (b : ℚ)) := by
  have hdm := Nat.div_add_mod (a + b - 1) b
  have hlt : (a + b - 1) % b < b := Nat.mod_lt _ hb
  have h1 : a ≤ b * ceilNat a b := by unfold ceilNat; omega
  have h2 : b * ceilNat a b < a + b := by unfold ceilNat; omega
  have hbq : (0 : ℚ) < (b : ℚ) := by positivity
  rw [eq_comm, Int.ceil_eq_iff]
  constructor
  · rw [lt_div_iff hbq]
    have hq : ((ceilNat a b : ℚ)) * b < a + b := by
      have : ((b * ceilNat a b : Nat) : ℚ) < ((a + b : Nat) : ℚ) := by exact_mod_cast h2
      push_cast at this
      linarith
    push_cast
    linarith
  · rw [div_le_iff hbq]
    have hq : (a : ℚ) ≤ (ceilNat a b : ℚ) * b := by
      have : ((a : Nat) : ℚ) ≤ ((b * ceilNat a b : Nat) : ℚ) := by exact_mod_cast h1
      push_cast at this
      linarith
    push_cast
    linarith

theorem moduleDayCount_eq_ceil (c T W : Nat) (hT : 0 < T) :
    moduleDayCount c T W = (Int.ceil ((c : ℚ) / (T : ℚ) * (W : ℚ))).toNat := by
  have h : (c : ℚ) / (T : ℚ) * (W : ℚ) = ((c * W : Nat) : ℚ) / (T : ℚ) := by
    push_cast; ring
  rw [h, ← ceilNat_eq_ceil_div (c * W) T hT]
  simp [moduleDayCount]

theorem zero_count_window (T W : Nat) (hT : 0 < T) : moduleDayCount 0 T W = 0 := by
  unfold moduleDayCount ceilNat
  simp only [Nat.zero_mul, Nat.zero_add]
  exact Nat.div_eq_of_lt (by omega)

theorem drop_append_take {α : Type} {x : List α} {d e : Nat} (h : d ≤ e) :
    (x.take e).drop d ++ x.drop e = x.drop d := by
  by_cases hd : d ≤ x.length
  · conv_rhs => rw [← List.take_append_drop e x]
    rw [List.drop_append_of_le_length (by simp; omega)]
  · have e1 : (x.take e).drop d = [] := List.drop_eq_nil_of_le (by simp; omega)
    have e2 : x.drop e = [] := List.drop_eq_nil_of_le (by omega)
    have e3 : x.drop d = [] := List.drop_eq_nil_of_le (by omega)
    rw [e1, e2, e3]
    rfl

theorem take_drop_glue {α : Type} {l : List α} {d e f : Nat} (h1 : d ≤ e) (h2 : e ≤ f) :
    (l.take e).drop d ++ (l.take f).drop e = (l.take f).drop d := by
  have h3 := drop_append_take (x := l.take f) (d := d) (e := e) h1
  rwa [List.take_take, Nat.min_eq_left h2] at h3

theorem allocGo_length (T W : Nat) (wd : List Nat) :
    ∀ (counts : List Nat) (d : Nat), (allocGo T W wd counts d).1.length = counts.length
  | [], _ => rfl
  | _ :: rest, d => by
    unfold allocGo
    simpa using allocGo_length T W wd rest _

theorem allocGo_bounds (T W : Nat) (wd : List Nat) :
    ∀ (counts : List Nat) (d : Nat), d ≤ W →
      d ≤ (allocGo T W wd counts d).2 ∧ (allocGo T W wd counts d).2 ≤ W
  | [], d, h => ⟨Nat.le_refl d, h⟩
  | c :: rest, d, h => by
    unfold allocGo
    have he : d ≤ min (d + moduleDayCount c T W) W ∧ min (d + moduleDayCount c T W) W ≤ W := by
      omega
    have := allocGo_bounds T W wd rest (min (d + moduleDayCount c T W) W) he.2
    simp only []
    omega

theorem allocGo_join (T W : Nat) (wd : List Nat) (hW : W = wd.length) :
    ∀ (counts : List Nat) (d : Nat), d ≤ W →
      (allocGo T W wd counts d).1.flatten =
        (wd.take (allocGo T W wd counts d).2).drop d
  | [], d, h => by
    have hnil : (wd.take d).drop d = [] :=
      List.drop_eq_nil_of_le (by rw [List.length_take]; omega)
    simp [allocGo, hnil]
  | c :: rest, d, h => by
    unfold allocGo
    simp only [List.flatten_cons]
    have hd : d ≤ min (d + moduleDayCount c T W) W := by omega
    have he : min (d + moduleDayCount c T W) W ≤ W := by omega
    rw [allocGo_join T W wd hW rest _ he]
    exact take_drop_glue hd (allocGo_bounds T W wd rest _ he).1

theorem allocGo_window_len (T W : Nat) (wd : List Nat) (hW : W = wd.length) :
    ∀ (counts : List Nat) (d k : Nat), d ≤ W → k < counts.length →
      (((allocGo T W wd counts d).1.getD k []).length =
        min (moduleDayCount (counts.getD k 0) T W)
          (W - (d + ((((allocGo T W wd counts d).1.take k).map List.length).sum))))
  | [], _, k, _, hk => absurd hk (by simp)
  | c :: rest, d, 0, hd, _ => by
    unfold allocGo
    simp only [List.getD_cons_zero, List.take_zero, List.map_nil, List.sum_nil,
      List.length_drop, List.length_take]
    omega
  | c :: rest, d, k + 1, hd, hk => by
    unfold allocGo
    have hd2 : min (d + moduleDayCount c T W) W ≤ W := by omega
    have ih := allocGo_window_len T W wd hW rest (min (d + moduleDayCount c T W) W) k hd2
      (by simpa using hk)
    simp only [List.getD_cons_succ, List.take_succ_cons, List.map_cons, List.sum_cons,
      List.length_drop, List.length_take]
    rw [ih]
    congr 1
    omega

theorem appendLeftover_join (extra : List Nat) :
    ∀ (ws : List (List Nat)), ws ≠ [] →
      (appendLeftover extra ws).flatten = ws.flatten ++ extra
  | [], h => absurd rfl h
  | [w], _ => by simp [appendLeftover]
  | w :: v :: rest, _ => by
    unfold appendLeftover
    simp only [List.flatten_cons, List.append_assoc]
    rw [appendLeftover_join extra (v :: rest) (by simp)]
    simp [List.flatten_cons, List.append_assoc]

theorem appendLeftover_length (extra : List Nat) :
    ∀ (ws : List (List Nat)), (appendLeftover extra ws).length = ws.length
  | [] => rfl
  | [_] => rfl
  | w :: v :: rest => by
    unfold appendLeftover
    simpa using appendLeftover_length extra (v :: rest)

theorem appendLeftover_getD (extra : List Nat) :
    ∀ (ws : List (List Nat)) (k : Nat), k + 1 < ws.length →
      (appendLeftover extra ws).getD k [] = ws.getD k []
  | [], _, h => by simp at h
  | [_], _, h => by simp at h
  | w :: v :: rest, 0, _ => rfl
  | w :: v :: rest, k + 1, h => by
    unfold appendLeftover
    simpa using appendLeftover_getD extra (v :: rest) k (by simpa using h)

theorem appendLeftover_take (extra : List Nat) :
    ∀ (ws : List (List Nat)) (k : Nat), k < ws.length →
      (appendLeftover extra ws).take k = ws.take k
  | [], _, h => by simp at h
  | [_], 0, _ => rfl
  | [_], k + 1, h => by simp at h
  | w :: v :: rest, 0, _ => rfl
  | w :: v :: rest, k + 1, h => by
    unfold appendLeftover
    simp only [List.take_succ_cons]
    rw [appendLeftover_take extra (v :: rest) k (by simpa using h)]

theorem sublist_flatten_of_mem {α : Type} :
    ∀ {L : List (List α)} {w : List α}, w ∈ L → w.Sublist L.flatten
  | x :: rest, w, h => by
    rcases List.mem_cons.mp h with h | h
    · subst h
      exact List.sublist_append_left _ _
    · exact (sublist_flatten_of_mem h).trans (List.sublist_append_right _ _)

theorem allocateModuleDays_flatten (counts wd : List Nat) (hT : counts.sum ≠ 0) :
    (allocateModuleDays counts wd).flatten = wd := by
  have hcne : counts ≠ [] := by
    intro h
    subst h
    simp at hT
  have hb := allocGo_bounds counts.sum wd.length wd counts 0 (Nat.zero_le _)
  have hj := allocGo_join counts.sum wd.length wd rfl counts 0 (Nat.zero_le _)
  simp only [List.drop_zero] at hj
  unfold allocateModuleDays
  rw [if_neg hT]
  by_cases hf : (allocGo counts.sum wd.length wd counts 0).2 < wd.length
  · rw [if_pos hf]
    rw [appendLeftover_join _ _ (by
      intro hnil
      have := allocGo_length counts.sum wd.length wd counts 0
      rw [hnil] at this
      exact hcne (List.length_eq_zero.mp this.symm))]
    rw [hj]
    exact List.take_append_drop _ _
  · rw [if_neg hf]
    have hfW : (allocGo counts.sum wd.length wd counts 0).2 = wd.length := by omega
    rw [hj, hfW, List.take_length]

theorem allocate_windows_sublist (counts wd : List Nat) :
    ∀ w ∈ allocateModuleDays counts wd, w.Sublist wd := by
  intro w hw
  by_cases hT : counts.sum = 0
  · unfold allocateModuleDays at hw
    rw [if_pos hT] at hw
    rcases List.mem_map.mp hw with ⟨c, _, hc⟩
    rw [← hc]
    exact List.nil_sublist wd
  · have := sublist_flatten_of_mem hw
    rwa [allocateModuleDays_flatten counts wd hT] at this

/-- Claim C2: for a positive total lesson count, the allocator's windows
partition the working-day list (their concatenation in order is exactly
the list), there is one window per module, the window lengths sum to the
total number of working days, and each non-final module's window length
is `⌈moduleLessonCount / totalLessons * totalWorkingDays⌉` clamped to
the days remaining after the earlier modules (the leftover days go to
the last module's window, which is what makes the concatenation
exhaustive). -/
theorem allocator_partition_spec (counts wd : List Nat) (hT : 0 < counts.sum) :
    (allocateModuleDays counts wd).flatten = wd ∧
    (allocateModuleDays counts wd).length = counts.length ∧
    ((allocateModuleDays counts wd).map List.length).sum = wd.length ∧
    (∀ k, k + 1 < counts.length →
      ((allocateModuleDays counts wd).getD k []).length =
        min (Int.ceil ((counts.getD k 0 : ℚ) / (counts.sum : ℚ) * (wd.length : ℚ))).toNat
          (wd.length - (((allocateModuleDays counts wd).take k).map List.length).sum)) := by
  have hT' : counts.sum ≠ 0 := by omega
  have hlen : (allocateModuleDays counts wd).length = counts.length := by
    unfold allocateModuleDays
    rw [if_neg hT']
    by_cases hf : (allocGo counts.sum wd.length wd counts 0).2 < wd.length
    · rw [if_pos hf, appendLeftover_length, allocGo_length]
    · rw [if_neg hf, allocGo_length]
  refine ⟨allocateModuleDays_flatten counts wd hT', hlen, ?_, ?_⟩
  · rw [← List.length_flatten, allocateModuleDays_flatten counts wd hT']
  · intro k hk
    have hwl := allocGo_window_len counts.sum wd.length wd rfl counts 0 k (Nat.zero_le _)
      (by omega)
    have hgl := allocGo_length counts.sum wd.length wd counts 0
    have hgetD : (allocateModuleDays counts wd).getD k [] =
        (allocGo counts.sum wd.length wd counts 0).1.getD k [] := by
      unfold allocateModuleDays
      rw [if_neg hT']
      by_cases hf : (allocGo counts.sum wd.length wd counts 0).2 < wd.length
      · rw [if_pos hf, appendLeftover_getD _ _ _ (by omega)]
      · rw [if_neg hf]
    have htake : (allocateModuleDays counts wd).take k =
        (allocGo counts.sum wd.length wd counts 0).1.take k := by
      unfold allocateModuleDays
      rw [if_neg hT']
      by_cases hf : (allocGo counts.sum wd.length wd counts 0).2 < wd.length
      · rw [if_pos hf, appendLeftover_take _ _ _ (by omega)]
      · rw [if_neg hf]
    rw [hgetD, htake, hwl, ← moduleDayCount_eq_ceil _ _ _ hT]
    simp

/-- Witness for C2 at a concrete input: two modules with 2 and 1
lessons over five working days. -/
theorem allocator_partition_spec_witness :
    (allocateModuleDays [2, 1] [9, 8, 7, 6, 5]).flatten = [9, 8, 7, 6, 5] ∧
    ((allocateModuleDays [2, 1] [9, 8, 7, 6, 5]).map List.length).sum = 5 :=
  ⟨(allocator_partition_spec [2, 1] [9, 8, 7, 6, 5] (by decide)).1,
   (allocator_partition_spec [2, 1] [9, 8, 7, 6, 5] (by decide)).2.2.1⟩

/-! ## Completion rates and per-module bounds -/

/-- Claim C5: the completion rate of student `i` is
`[1.0, 0.8, 0.6, 0.4, 0.2]` indexed by `i % 5` (the model stores it in
tenths), the per-module lesson count is
`⌈moduleLessonCount · completionRate⌉`, a rate-1.0 student is assigned
the whole module, and a rate-0.2 student is assigned exactly 1 lesson of
a 5-lesson module. -/
theorem completion_rate_spec (i len : Nat) :
    ((completionRateNum i : ℚ) / 10 =
       [(1 : ℚ), 8/10, 6/10, 4/10, 2/10].getD (i % 5) 0) ∧
    (lessonsToCompleteInModule len i =
       (Int.ceil ((len : ℚ) * ((completionRateNum i : ℚ) / 10))).toNat) ∧
    (i % 5 = 0 → lessonsToCompleteInModule len i = len) ∧
    (i % 5 = 4 → lessonsToCompleteInModule 5 i = 1) := by
  refine ⟨?_, ?_, ?_, ?_⟩
  · have h5 : i % 5 = 0 ∨ i % 5 = 1 ∨ i % 5 = 2 ∨ i % 5 = 3 ∨ i % 5 = 4 := by omega
    rcases h5 with h | h | h | h | h <;> simp [completionRateNum, h]
  · have h := ceilNat_eq_ceil_div (len * completionRateNum i) 10 (by norm_num)
    have h2 : (len : ℚ) * ((completionRateNum i : ℚ) / 10) =
        ((len * completionRateNum i : Nat) : ℚ) / (10 : ℚ) := by
      push_cast; ring
    rw [h2]
    have h10 : ((10 : Nat) : ℚ) = (10 : ℚ) := by norm_num
    rw [← h10, ← h]
    simp [lessonsToCompleteInModule]
  · intro h
    simp only [lessonsToCompleteInModule, completionRateNum, h, ceilNat]
    omega
  · intro h
    simp only [lessonsToCompleteInModule, completionRateNum, h, ceilNat]

/-- Witness for C5: a rate-1.0 student (index 5) is assigned all 7
lessons, a rate-0.2 student (index 4) is assigned 1 of 5. -/
theorem completion_rate_spec_witness :
    lessonsToCompleteInModule 7 5 = 7 ∧ lessonsToCompleteInModule 5 4 = 1 :=
  ⟨(completion_rate_spec 5 7).2.2.1 rfl, (completion_rate_spec 4 5).2.2.2 rfl⟩

theorem completionRateNum_le (i : Nat) : completionRateNum i ≤ 10 := by
  unfold completionRateNum
  split <;> omega

theorem lessonsToComplete_le (i len : Nat) : lessonsToCompleteInModule len i ≤ len := by
  unfold lessonsToCompleteInModule ceilNat
  have h1 : len * completionRateNum i ≤ len * 10 :=
    Nat.mul_le_mul_left len (completionRateNum_le i)
  have h2 : (len * completionRateNum i + 10 - 1) / 10 ≤ (len * 10 + 10 - 1) / 10 :=
    Nat.div_le_div_right (by omega)
  omega

/-- Claim C7: the per-student walk stays in bounds: the per-module
lesson count never exceeds the module's lesson list length (so every
lesson index that the loop reads is in range), the scheduling-day index
is clamped below `availableDays.length`, a module with an empty day
window contributes nothing for any student, and a student assigned zero
lessons contributes nothing for that module. -/
theorem scheduler_bounds_spec :
    (∀ i len, lessonsToCompleteInModule len i ≤ len) ∧
    (∀ (off : Nat) (avail : List Nat), avail ≠ [] →
       min off (avail.length - 1) < avail.length) ∧
    (∀ i N eid m ml, processModule i N eid m ml [] = ⟨[], [], []⟩) ∧
    (∀ i N eid m (ml : List LessonData) (mdays : List Nat),
       lessonsToCompleteInModule ml.length i = 0 →
       processModule i N eid m ml mdays = ⟨[], [], []⟩) := by
  refine ⟨fun i len => lessonsToComplete_le i len, ?_, ?_, ?_⟩
  · intro off avail h
    have h1 : 0 < avail.length := List.length_pos.mpr h
    have h2 := Nat.min_le_right off (avail.length - 1)
    omega
  · intro i N eid m ml
    simp [processModule]
  · intro i N eid m ml mdays h
    by_cases hm : mdays.length = 0
    · simp [processModule, hm]
    · simp [processModule, hm, h]

/-- Witness for C7: concrete instances of the in-bounds and skip
facts. -/
theorem scheduler_bounds_spec_witness :
    lessonsToCompleteInModule 3 1 ≤ 3 ∧ min 7 2 < 3 ∧
    processModule 0 1 42 0 [defaultLessonData] [] = ⟨[], [], []⟩ ∧
    processModule 4 1 42 0 [] [5, 4] = ⟨[], [], []⟩ := by
  refine ⟨scheduler_bounds_spec.1 1 3, ?_, scheduler_bounds_spec.2.2.1 0 1 42 0 _,
    scheduler_bounds_spec.2.2.2 4 1 42 0 [] [5, 4] (by decide)⟩
  exact scheduler_bounds_spec.2.1 7 [1, 2, 3] (by decide)

/-- Claim C8: a zero-lesson module (with a positive overall total) gets
day-count 0 from the allocator with no division failure, and no events,
split continuations, or pending mastery checks are produced for it for
any student. -/
theorem zero_lesson_module_spec :
    (∀ T W, 0 < T → moduleDayCount 0 T W = 0) ∧
    (∀ i N eid m (mdays : List Nat), processModule i N eid m [] mdays = ⟨[], [], []⟩) := by
  refine ⟨fun T W hT => zero_count_window T W hT, ?_⟩
  intro i N eid m mdays
  have h : lessonsToCompleteInModule 0 i = 0 := by
    simp [lessonsToCompleteInModule, ceilNat]
  by_cases hm : mdays.length = 0
  · simp [processModule, hm]
  · simp [processModule, hm, h]

/-- Witness for C8: a zero-lesson module among 3 total lessons gets an
empty window, and produces nothing for a concrete student. -/
theorem zero_lesson_module_spec_witness :
    moduleDayCount 0 3 5 = 0 ∧ processModule 2 4 77 1 [] [9, 8, 7] = ⟨[], [], []⟩ :=
  ⟨zero_lesson_module_spec.1 3 5 (by decide), zero_lesson_module_spec.2 2 4 77 1 [9, 8, 7]⟩

/-! ## Question events -/

theorem emitQuestionRange_mem {eid lid : Nat} :
    ∀ {sub : List LessonQuestion} {qIdx h d : Nat} {e : Event},
      e ∈ emitQuestionRange eid lid sub qIdx h d →
      e.eid = eid ∧ e.lid = lid ∧
      ∃ j, j < sub.length ∧ e.q = some (qIdx + j) ∧
        e.time = getTimestampDaysAgo d (h + j) ∧
        (e.etype = EType.shown ∨ e.etype = EType.answered)
  | qu :: rest, qIdx, h, d, e, hmem => by
    unfold emitQuestionRange at hmem
    rcases List.mem_append.mp hmem with hmem1 | hrest
    · rcases List.mem_append.mp hmem1 with hsh | hans
      · unfold createQuestionShownEvent at hsh
        by_cases hkc : qu.kcId = 0
        · rw [if_pos hkc] at hsh
          simp at hsh
        · rw [if_neg hkc] at hsh
          rcases List.mem_singleton.mp hsh with rfl
          exact ⟨rfl, rfl, 0, by simp, by simp, by simp, Or.inl rfl⟩
      · rcases List.mem_singleton.mp hans with rfl
        exact ⟨rfl, rfl, 0, by simp, by simp, by simp, Or.inr rfl⟩
    · obtain ⟨h1, h2, j, hj, hq, ht, hty⟩ := emitQuestionRange_mem hrest
      refine ⟨h1, h2, j + 1, by simpa using hj, ?_, ?_, hty⟩
      · rw [hq]
        congr 1
        omega
      · rw [ht]
        congr 1
        omega

/-- Claim C9: for every question the scheduler processes, the
QUESTION_SHOWN event is emitted iff the question has a knowledge
component id, while QUESTION_ANSWERED is emitted unconditionally. -/
theorem question_events_spec (eid lid : Nat) :
    ∀ (sub : List LessonQuestion) (qIdx h d j : Nat) (hj : j < sub.length),
      ((∃ e ∈ emitQuestionRange eid lid sub qIdx h d,
          e.etype = EType.shown ∧ e.q = some (qIdx + j)) ↔
        (sub.get ⟨j, hj⟩).kcId ≠ 0) ∧
      (∃ e ∈ emitQuestionRange eid lid sub qIdx h d,
         e.etype = EType.answered ∧ e.q = some (qIdx + j))
  | [], _, _, _, j, hj => absurd hj (by simp)
  | qu :: rest, qIdx, h, d, 0, hj => by
    constructor
    · constructor
      · rintro ⟨e, hmem, hsh, hq⟩ hkc
        have hkc0 : qu.kcId = 0 := hkc
        unfold emitQuestionRange at hmem
        rcases List.mem_append.mp hmem with hmem1 | hrest
        · rcases List.mem_append.mp hmem1 with h1 | h1
          · unfold createQuestionShownEvent at h1
            rw [if_pos hkc0] at h1
            simp at h1
          · rcases List.mem_singleton.mp h1 with rfl
            simp at hsh
        · obtain ⟨-, -, j', -, hq', -, -⟩ := emitQuestionRange_mem hrest
          rw [hq'] at hq
          simp at hq
          omega
      · intro hkc
        have hkc0 : qu.kcId ≠ 0 := hkc
        refine ⟨⟨EType.shown, eid, lid, some qIdx, getTimestampDaysAgo d h⟩, ?_, rfl, by simp⟩
        unfold emitQuestionRange createQuestionShownEvent
        rw [if_neg hkc0]
        simp
    · refine ⟨⟨EType.answered, eid, lid, some qIdx, getTimestampDaysAgo d h⟩, ?_, rfl, by simp⟩
      unfold emitQuestionRange createQuestionAnsweredEvent
      simp
  | qu :: rest, qIdx, h, d, j + 1, hj => by
    have ih := question_events_spec eid lid rest (qIdx + 1) (h + 1) d j (by simpa using hj)
    have hshift : qIdx + (j + 1) = (qIdx + 1) + j := by omega
    constructor
    · rw [show ((qu :: rest).get ⟨j + 1, hj⟩) = rest.get ⟨j, by simpa using hj⟩ from rfl]
      rw [← ih.1]
      constructor
      · rintro ⟨e, hmem, hsh, hq⟩
        unfold emitQuestionRange at hmem
        rcases List.mem_append.mp hmem with hmem1 | hrest
        · rcases List.mem_append.mp hmem1 with h1 | h1
          · unfold createQuestionShownEvent at h1
            by_cases hkc : qu.kcId = 0
            · rw [if_pos hkc] at h1
              simp at h1
            · rw [if_neg hkc] at h1
              rcases List.mem_singleton.mp h1 with rfl
              simp at hq
          · rcases List.mem_singleton.mp h1 with rfl
            simp at hsh
        · exact ⟨e, hrest, hsh, by rw [← hshift]; exact hq⟩
      · rintro ⟨e, hmem, hsh, hq⟩
        refine ⟨e, ?_, hsh, by rw [hshift]; exact hq⟩
        unfold emitQuestionRange
        exact List.mem_append.mpr (Or.inr hmem)
    · obtain ⟨e, hmem, hans, hq⟩ := ih.2
      refine ⟨e, ?_, hans, by rw [hshift]; exact hq⟩
      unfold emitQuestionRange
      exact List.mem_append.mpr (Or.inr hmem)

/-- Witness for C9: in a two-question list whose first question lacks a
knowledge component, question 0 gets no shown event but an answered
event, question 1 gets both. -/
theorem question_events_spec_witness :
    (¬ (⟨1, 0, 1⟩ : LessonQuestion).kcId ≠ 0 →
      ¬ ∃ e ∈ emitQuestionRange 3 4 [⟨1, 0, 1⟩, ⟨2, 9, 2⟩] 0 0 5,
          e.etype = EType.shown ∧ e.q = some 0) ∧
    (∃ e ∈ emitQuestionRange 3 4 [⟨1, 0, 1⟩, ⟨2, 9, 2⟩] 0 0 5,
       e.etype = EType.answered ∧ e.q = some 0) ∧
    (∃ e ∈ emitQuestionRange 3 4 [⟨1, 0, 1⟩, ⟨2, 9, 2⟩] 0 0 5,
       e.etype = EType.shown ∧ e.q = some 1) := by
  have h0 := question_events_spec 3 4 [⟨1, 0, 1⟩, ⟨2, 9, 2⟩] 0 0 5 0 (by decide)
  have h1 := question_events_spec 3 4 [⟨1, 0, 1⟩, ⟨2, 9, 2⟩] 0 0 5 1 (by decide)
  exact ⟨fun hne hex => hne (h0.1.mp hex), h0.2, h1.1.mpr (by decide)⟩

/-! ## Branch characterizations of the per-lesson and continuation
bodies -/

/-- `processLesson` by cases on the split and delay decisions. -/
theorem processLesson_eq (i m l eid : Nat) (lesson : LessonData)
    (avail mdays : List Nat) (dpl off : Nat) :
    processLesson i m l eid lesson avail mdays dpl off =
      if shouldSplitLesson i l m lesson.questions.length then
        (⟨emitQuestionRange eid lesson.lessonId
            (lesson.questions.take (lesson.questions.length / 2)) 0 0
            (day1OffsetOf avail off),
          [⟨eid, lesson, lesson.questions.length / 2,
            getNextWorkingDay (day1OffsetOf avail off) avail, m, l⟩], []⟩,
         off + 2)
      else if shouldDelayMasteryCheck i l m ∧ 1 < day1OffsetOf avail off then
        (⟨emitQuestionRange eid lesson.lessonId
            (lesson.questions.take lesson.questions.length) 0 0
            (day1OffsetOf avail off) ++
          [⟨EType.lessonCompleted, eid, lesson.lessonId, none,
             getTimestampDaysAgo (day1OffsetOf avail off) lesson.questions.length⟩],
          [], [⟨eid, lesson, getNextWorkingDay (day1OffsetOf avail off) mdays, m⟩]⟩,
         off + dpl)
      else
        (⟨emitQuestionRange eid lesson.lessonId
            (lesson.questions.take lesson.questions.length) 0 0
            (day1OffsetOf avail off) ++
          [⟨EType.lessonCompleted, eid, lesson.lessonId, none,
             getTimestampDaysAgo (day1OffsetOf avail off) lesson.questions.length⟩] ++
          masteryEvents eid lesson.lessonId
            (getTimestampDaysAgo (day1OffsetOf avail off) lesson.questions.length),
          [], []⟩,
         off + dpl) := by
  by_cases hs : shouldSplitLesson i l m lesson.questions.length
  · have hq2 : 0 < lesson.questions.length - lesson.questions.length / 2 := by
      have := hs.2
      omega
    rw [if_pos hs]
    simp only [processLesson, day1OffsetOf, if_pos hs]
    rw [if_pos ⟨hs, hq2⟩]
  · rw [if_neg hs]
    simp only [processLesson, day1OffsetOf, if_neg hs]
    have houter : ¬ (shouldSplitLesson i l m lesson.questions.length ∧
        0 < (0 : Nat)) := fun h => hs h.1
    rw [if_neg houter]

/-- `processContinuation` by cases on the delay decision. -/
theorem processContinuation_eq (p : PartialLessonProgress) (w : List (List Nat)) :
    processContinuation p w =
      if (p.lessonIndex + p.moduleIndex) % 5 < 2 ∧ 1 < p.scheduledDayOffset then
        (emitQuestionRange p.eid p.lesson.lessonId
           (p.lesson.questions.drop p.questionsCompleted) p.questionsCompleted 0
           p.scheduledDayOffset ++
         [⟨EType.lessonCompleted, p.eid, p.lesson.lessonId, none,
            getTimestampDaysAgo p.scheduledDayOffset
              (p.lesson.questions.length - p.questionsCompleted)⟩],
         [⟨p.eid, p.lesson,
           getNextWorkingDay p.scheduledDayOffset (w.getD p.moduleIndex []),
           p.moduleIndex⟩])
      else
        (emitQuestionRange p.eid p.lesson.lessonId
           (p.lesson.questions.drop p.questionsCompleted) p.questionsCompleted 0
           p.scheduledDayOffset ++
         [⟨EType.lessonCompleted, p.eid, p.lesson.lessonId, none,
            getTimestampDaysAgo p.scheduledDayOffset
              (p.lesson.questions.length - p.questionsCompleted)⟩] ++
         masteryEvents p.eid p.lesson.lessonId
           (getTimestampDaysAgo p.scheduledDayOffset
              (p.lesson.questions.length - p.questionsCompleted)),
         []) := by
  by_cases hd : (p.lessonIndex + p.moduleIndex) % 5 < 2 ∧ 1 < p.scheduledDayOffset
  · rw [if_pos hd]
    simp only [processContinuation]
    rw [if_pos hd]
  · rw [if_neg hd]
    simp only [processContinuation]
    rw [if_neg hd]

/-! ## The per-lesson split decision (claim C4) -/

/-- Claim C4: a lesson is split exactly when
`(i + lessonIdx + moduleIndex) % 10 < 3` and it has at least two
questions; in that case the iteration emits exactly the first
`⌊questionCount/2⌋` questions on the current scheduling day and queues
the remainder as a continuation for the next working day. -/
theorem split_lesson_spec (i m l eid : Nat) (lesson : LessonData)
    (avail mdays : List Nat) (dpl off : Nat) :
    ((processLesson i m l eid lesson avail mdays dpl off).1.partials ≠ [] ↔
       shouldSplitLesson i l m lesson.questions.length) ∧
    (shouldSplitLesson i l m lesson.questions.length →
       (processLesson i m l eid lesson avail mdays dpl off).1 =
         ⟨emitQuestionRange eid lesson.lessonId
            (lesson.questions.take (lesson.questions.length / 2)) 0 0
            (day1OffsetOf avail off),
          [⟨eid, lesson, lesson.questions.length / 2,
            getNextWorkingDay (day1OffsetOf avail off) avail, m, l⟩],
          []⟩) := by
  rw [processLesson_eq]
  by_cases hs : shouldSplitLesson i l m lesson.questions.length
  · rw [if_pos hs]
    exact ⟨by simp [hs], fun _ => rfl⟩
  · rw [if_neg hs]
    by_cases hd : shouldDelayMasteryCheck i l m ∧ 1 < day1OffsetOf avail off
    · rw [if_pos hd]
      exact ⟨by simp [hs], fun h => absurd h hs⟩
    · rw [if_neg hd]
      exact ⟨by simp [hs], fun h => absurd h hs⟩

/-- Witness for C4 at a concrete input: student 0, module 0, lesson 0
with 4 questions is split, emitting questions 0–1 and queueing a
continuation with 2 questions done, scheduled for the next working
day 2. -/
theorem split_lesson_spec_witness :
    (processLesson 0 0 0 5 ⟨100, [⟨1, 1, 1⟩, ⟨2, 1, 2⟩, ⟨3, 1, 3⟩, ⟨4, 1, 4⟩]⟩
        [3, 2] [3, 2] 1 0).1 =
      ⟨emitQuestionRange 5 100 [⟨1, 1, 1⟩, ⟨2, 1, 2⟩] 0 0 3,
       [⟨5, ⟨100, [⟨1, 1, 1⟩, ⟨2, 1, 2⟩, ⟨3, 1, 3⟩, ⟨4, 1, 4⟩]⟩, 2, 2, 0, 0⟩], []⟩ := by
  have h := (split_lesson_spec 0 0 0 5 ⟨100, [⟨1, 1, 1⟩, ⟨2, 1, 2⟩, ⟨3, 1, 3⟩, ⟨4, 1, 4⟩]⟩
    [3, 2] [3, 2] 1 0).2 (by decide)
  rw [h]
  rfl

/-! ## The day-offset-1 guard on delayed mastery checks (claim C10) -/

/-- Claim C10: a mastery check is queued as delayed only for a lesson
completed on a day offset strictly greater than 1 (in the main pass and
in the continuation pass alike); on day offset 1 the mastery response
and completion are always emitted immediately with the completion
timestamp, whatever the modular delay formula says. -/
theorem day_one_mastery_spec :
    (∀ i m l eid (lesson : LessonData) (avail mdays : List Nat) (dpl off : Nat),
       (processLesson i m l eid lesson avail mdays dpl off).1.pendings ≠ [] →
       1 < day1OffsetOf avail off) ∧
    (∀ (p : PartialLessonProgress) (w : List (List Nat)),
       (processContinuation p w).2 ≠ [] → 1 < p.scheduledDayOffset) ∧
    (∀ i m l eid (lesson : LessonData) (avail mdays : List Nat) (dpl off : Nat),
       ¬ shouldSplitLesson i l m lesson.questions.length →
       day1OffsetOf avail off = 1 →
       (processLesson i m l eid lesson avail mdays dpl off).1 =
         ⟨emitQuestionRange eid lesson.lessonId
            (lesson.questions.take lesson.questions.length) 0 0 1 ++
          [⟨EType.lessonCompleted, eid, lesson.lessonId, none,
             getTimestampDaysAgo 1 lesson.questions.length⟩] ++
          masteryEvents eid lesson.lessonId
            (getTimestampDaysAgo 1 lesson.questions.length),
          [], []⟩) ∧
    (∀ (p : PartialLessonProgress) (w : List (List Nat)), p.scheduledDayOffset = 1 →
       (processContinuation p w).1 =
         emitQuestionRange p.eid p.lesson.lessonId
           (p.lesson.questions.drop p.questionsCompleted) p.questionsCompleted 0 1 ++
         [⟨EType.lessonCompleted, p.eid, p.lesson.lessonId, none,
            getTimestampDaysAgo 1 (p.lesson.questions.length - p.questionsCompleted)⟩] ++
         masteryEvents p.eid p.lesson.lessonId
           (getTimestampDaysAgo 1 (p.lesson.questions.length - p.questionsCompleted))) := by
  refine ⟨?_, ?_, ?_, ?_⟩
  · intro i m l eid lesson avail mdays dpl off hne
    rw [processLesson_eq] at hne
    by_cases hs : shouldSplitLesson i l m lesson.questions.length
    · rw [if_pos hs] at hne
      simp at hne
    · rw [if_neg hs] at hne
      by_cases hd : shouldDelayMasteryCheck i l m ∧ 1 < day1OffsetOf avail off
      · exact hd.2
      · rw [if_neg hd] at hne
        simp at hne
  · intro p w hne
    rw [processContinuation_eq] at hne
    by_cases hd : (p.lessonIndex + p.moduleIndex) % 5 < 2 ∧ 1 < p.scheduledDayOffset
    · exact hd.2
    · rw [if_neg hd] at hne
      simp at hne
  · intro i m l eid lesson avail mdays dpl off hs hday
    rw [processLesson_eq, if_neg hs, if_neg (by rw [hday]; omega), hday]
  · intro p w hday
    rw [processContinuation_eq, if_neg (by rw [hday]; omega), hday]

/-- Witness for C10: a concrete non-split lesson scheduled on day offset
1 whose delay formula is true (student 5, lesson 0, module 0:
`5 % 5 = 0 < 2`) still gets its mastery events at the completion
timestamp, and a continuation scheduled on day 1 does too. -/
theorem day_one_mastery_spec_witness :
    (processLesson 5 0 0 9 ⟨100, [⟨1, 1, 1⟩]⟩ [1] [1] 1 0).1 =
      ⟨emitQuestionRange 9 100 [⟨1, 1, 1⟩] 0 0 1 ++
       [⟨EType.lessonCompleted, 9, 100, none, getTimestampDaysAgo 1 1⟩] ++
       masteryEvents 9 100 (getTimestampDaysAgo 1 1), [], []⟩ ∧
    (processContinuation ⟨9, ⟨100, [⟨1, 1, 1⟩, ⟨2, 1, 2⟩]⟩, 1, 1, 0, 0⟩ []).1 =
      emitQuestionRange 9 100 [⟨2, 1, 2⟩] 1 0 1 ++
      [⟨EType.lessonCompleted, 9, 100, none, getTimestampDaysAgo 1 1⟩] ++
      masteryEvents 9 100 (getTimestampDaysAgo 1 1) := by
  constructor
  · have h := day_one_mastery_spec.2.2.1 5 0 0 9 ⟨100, [⟨1, 1, 1⟩]⟩ [1] [1] 1 0
      (by decide) (by decide)
    rw [h]
    rfl
  · have h := day_one_mastery_spec.2.2.2 ⟨9, ⟨100, [⟨1, 1, 1⟩, ⟨2, 1, 2⟩]⟩, 1, 1, 0, 0⟩ []
      (by decide)
    rw [h]
    rfl

/-! ## The continuation pass mastery-delay decision (claim C3) -/

/-- Counterexample for C3: in a concrete run, student index 1 splits
lesson 0 of module 9 (`(1+0+9) % 10 = 0 < 3`); the claim's predicate
`(studentIndex + lessonIndex + moduleIndex) % 5 < 2` holds
(`(1+0+9) % 5 = 0`), yet the reconciler queues no pending mastery check
for the drained entry, because the source's continuation pass computes
`(lessonIndex + moduleIndex) % 5 = 9 % 5 = 4 ≥ 2` without the student
index. -/
theorem continuation_delay_counterexample :
    (⟨11, ceLesson, 1, 3, 9, 0⟩ : PartialLessonProgress) ∈
      runPartials [10, 11] ceModules [4, 3, 2] ∧
    shouldDelayMasteryCheck ([10, 11].indexOf 11) 0 9 ∧
    (processContinuation ⟨11, ceLesson, 1, 3, 9, 0⟩
       (allocateModuleDays (ceModules.map List.length) [4, 3, 2])).2 = [] := by
  decide

/-- Claim C3 (amended): for every drained continuation entry, a pending
mastery check is queued iff
`(p.lessonIndex + p.moduleIndex) % 5 < 2` — the student index does not
enter the reconciler's formula — and additionally the scheduled day
offset exceeds 1; otherwise the mastery response and completion are
emitted immediately at the continuation's completion timestamp. -/
theorem continuation_mastery_delay_spec (p : PartialLessonProgress)
    (w : List (List Nat)) :
    ((processContinuation p w).2 ≠ [] ↔
       ((p.lessonIndex + p.moduleIndex) % 5 < 2 ∧ 1 < p.scheduledDayOffset)) ∧
    (((p.lessonIndex + p.moduleIndex) % 5 < 2 ∧ 1 < p.scheduledDayOffset) →
       (processContinuation p w).2 =
         [⟨p.eid, p.lesson,
           getNextWorkingDay p.scheduledDayOffset (w.getD p.moduleIndex []),
           p.moduleIndex⟩]) ∧
    (¬ ((p.lessonIndex + p.moduleIndex) % 5 < 2 ∧ 1 < p.scheduledDayOffset) →
       (processContinuation p w).1 =
         emitQuestionRange p.eid p.lesson.lessonId
           (p.lesson.questions.drop p.questionsCompleted) p.questionsCompleted 0
           p.scheduledDayOffset ++
         [⟨EType.lessonCompleted, p.eid, p.lesson.lessonId, none,
            getTimestampDaysAgo p.scheduledDayOffset
              (p.lesson.questions.length - p.questionsCompleted)⟩] ++
         masteryEvents p.eid p.lesson.lessonId
           (getTimestampDaysAgo p.scheduledDayOffset
              (p.lesson.questions.length - p.questionsCompleted))) := by
  rw [processContinuation_eq]
  by_cases hd : (p.lessonIndex + p.moduleIndex) % 5 < 2 ∧ 1 < p.scheduledDayOffset
  · rw [if_pos hd]
    exact ⟨by simp [hd], fun _ => rfl, fun h => absurd hd h⟩
  · rw [if_neg hd]
    exact ⟨by simp [hd], fun h => absurd h hd, fun _ => rfl⟩

/-- Witness for C3 (amended): the queue decision on two concrete
entries, one immediate, one queued. -/
theorem continuation_mastery_delay_spec_witness :
    (processContinuation ⟨11, ceLesson, 1, 3, 9, 0⟩ [[4, 3, 2]]).2 = [] ∧
    (processContinuation ⟨11, ceLesson, 1, 3, 1, 0⟩ [[], [6, 5, 4]]).2 =
      [⟨11, ceLesson, 2, 1⟩] := by
  constructor
  · by_contra hne
    have h := (continuation_mastery_delay_spec ⟨11, ceLesson, 1, 3, 9, 0⟩ [[4, 3, 2]]).1.mp hne
    revert h
    decide
  · have h := (continuation_mastery_delay_spec ⟨11, ceLesson, 1, 3, 1, 0⟩
      [[], [6, 5, 4]]).2.1 (by decide)
    rw [h]
    decide

/-! ## Ordering algebra (claim C1 infrastructure) -/

theorem ordered_append {A B : List Event} :
    ordered (A ++ B) ↔ ordered A ∧ ordered B ∧ crossOrd A B := by
  unfold ordered crossOrd
  constructor
  · intro h
    refine ⟨fun a ha b hb => h a (by simp [ha]) b (by simp [hb]),
      fun a ha b hb => h a (by simp [ha]) b (by simp [hb]),
      fun a ha b hb hk => ⟨fun hr => h a (by simp [ha]) b (by simp [hb]) hk hr,
        fun hr => h b (by simp [hb]) a (by simp [ha]) hk.symm hr⟩⟩
  · rintro ⟨hA, hB, hX⟩ a ha b hb hk hr
    rcases List.mem_append.mp ha with ha | ha <;> rcases List.mem_append.mp hb with hb | hb
    · exact hA a ha b hb hk hr
    · exact (hX a ha b hb hk).1 hr
    · exact (hX b hb a ha hk.symm).2 hr
    · exact hB a ha b hb hk hr

theorem crossOrd_append_left {A B C : List Event} :
    crossOrd (A ++ B) C ↔ crossOrd A C ∧ crossOrd B C := by
  unfold crossOrd
  constructor
  · intro h
    exact ⟨fun a ha => h a (by simp [ha]), fun a ha => h a (by simp [ha])⟩
  · rintro ⟨h1, h2⟩ a ha
    rcases List.mem_append.mp ha with ha | ha
    · exact h1 a ha
    · exact h2 a ha

theorem crossOrd_append_right {A B C : List Event} :
    crossOrd A (B ++ C) ↔ crossOrd A B ∧ crossOrd A C := by
  unfold crossOrd
  constructor
  · intro h
    exact ⟨fun a ha b hb => h a ha b (by simp [hb]), fun a ha b hb => h a ha b (by simp [hb])⟩
  · rintro ⟨h1, h2⟩ a ha b hb
    rcases List.mem_append.mp hb with hb | hb
    · exact h1 a ha b hb
    · exact h2 a ha b hb

theorem crossOrd_of_ne {A B : List Event}
    (h : ∀ a ∈ A, ∀ b ∈ B, keyOf a ≠ keyOf b) : crossOrd A B :=
  fun a ha b hb hk => absurd hk (h a ha b hb)

theorem not_rel_of_mastery {a : Event}
    (h : a.etype = EType.masteryResponse ∨ a.etype = EType.masteryCompleted) (b : Event) :
    ¬ rel a b := by
  rcases h with h | h <;>
    · intro hr
      rcases hr with ⟨h1, -⟩ | ⟨h1, -⟩ | ⟨h1, -⟩ | ⟨h1, -⟩ <;> rw [h] at h1 <;> cases h1

theorem pendingSpec_append_iff {A B : List Event} {pd : PendingMasteryCheck} :
    pendingSpec (A ++ B) pd ↔ pendingSpec A pd ∧ pendingSpec B pd := by
  unfold pendingSpec
  constructor
  · intro h
    exact ⟨fun e he => h e (by simp [he]), fun e he => h e (by simp [he])⟩
  · rintro ⟨h1, h2⟩ e he
    rcases List.mem_append.mp he with he | he
    · exact h1 e he
    · exact h2 e he

theorem partialSpec_append {E E2 : List Event} {p : PartialLessonProgress}
    (h : partialSpec E p) (h2 : ∀ e ∈ E2, keyOf e ≠ pkey p) :
    partialSpec (E ++ E2) p := by
  obtain ⟨hq, hr, d, hd, hall⟩ := h
  refine ⟨hq, hr, d, hd, fun e he hk => ?_⟩
  rcases List.mem_append.mp he with he | he
  · exact hall e he hk
  · exact absurd hk (h2 e he)

theorem partialSpec_append_left {E1 E : List Event} {p : PartialLessonProgress}
    (h : partialSpec E p) (h1 : ∀ e ∈ E1, keyOf e ≠ pkey p) :
    partialSpec (E1 ++ E) p := by
  obtain ⟨hq, hr, d, hd, hall⟩ := h
  refine ⟨hq, hr, d, hd, fun e he hk => ?_⟩
  rcases List.mem_append.mp he with he | he
  · exact absurd hk (h1 e he)
  · exact hall e he hk

theorem pendingSpec_of_ne {E : List Event} {pd : PendingMasteryCheck}
    (h : ∀ e ∈ E, keyOf e ≠ dkey pd) : pendingSpec E pd :=
  fun e he hk => absurd hk (h e he)

/-! ## Block-level ordering facts -/

theorem ordered_emitQuestionRange {eid lid : Nat} {sub : List LessonQuestion}
    {qIdx h d : Nat} : ordered (emitQuestionRange eid lid sub qIdx h d) := by
  intro a ha b hb hk hr
  obtain ⟨-, -, ja, -, hqa, hta, htya⟩ := emitQuestionRange_mem ha
  obtain ⟨-, -, jb, -, hqb, htb, htyb⟩ := emitQuestionRange_mem hb
  rw [hta, htb, getTimestampDaysAgo_le]
  rcases hr with ⟨-, -, hq⟩ | ⟨-, -, -, hq⟩ | ⟨-, hty⟩ | ⟨hty, -⟩
  · rw [hqa, hqb] at hq
    simp at hq
    omega
  · rw [hqb, hqa] at hq
    simp at hq
    omega
  · rcases htyb with h1 | h1 <;> rw [hty] at h1 <;> cases h1
  · rcases htya with h1 | h1 <;> rw [hty] at h1 <;> cases h1

theorem crossOrd_emitQuestionRange_completed {eid lid eid2 lid2 : Nat}
    {sub : List LessonQuestion} {qIdx d n : Nat} (hn : sub.length ≤ n) :
    crossOrd (emitQuestionRange eid lid sub qIdx 0 d)
      [⟨EType.lessonCompleted, eid2, lid2, none, getTimestampDaysAgo d n⟩] := by
  intro a ha b hb hk
  rcases List.mem_singleton.mp hb with rfl
  obtain ⟨-, -, ja, hja, hqa, hta, htya⟩ := emitQuestionRange_mem ha
  constructor
  · intro hr
    rcases hr with ⟨-, hty, -⟩ | ⟨-, hty, -, -⟩ | ⟨-, -⟩ | ⟨hty, -⟩
    · cases hty
    · cases hty
    · rw [hta, getTimestampDaysAgo_le]
      omega
    · rcases htya with h1 | h1 <;> rw [hty] at h1 <;> cases h1
  · intro hr
    rcases hr with ⟨hty, -, -⟩ | ⟨hty, -, -, -⟩ | ⟨hty, -⟩ | ⟨-, hty⟩
    · cases hty
    · cases hty
    · cases hty
    · rcases htya with h1 | h1 <;> exact absurd (hty.symm.trans h1) (by decide)

theorem ordered_masteryEvents {eid lid : Nat} {t : Int} :
    ordered (masteryEvents eid lid t) := by
  intro a ha b hb hk hr
  unfold masteryEvents at ha
  have hm : a.etype = EType.masteryResponse ∨ a.etype = EType.masteryCompleted := by
    rcases List.mem_cons.mp ha with rfl | ha
    · exact Or.inl rfl
    · rcases List.mem_singleton.mp ha with rfl
      exact Or.inr rfl
  exact absurd hr (not_rel_of_mastery hm b)

theorem crossOrd_masteryEvents {X : List Event} {eid lid : Nat} {t : Int}
    (hc : ∀ x ∈ X, keyOf x = (eid, lid) → x.etype = EType.lessonCompleted → x.time ≤ t) :
    crossOrd X (masteryEvents eid lid t) := by
  intro a ha b hb hk
  have hmb : b.etype = EType.masteryResponse ∨ b.etype = EType.masteryCompleted := by
    rcases List.mem_cons.mp hb with rfl | hb
    · exact Or.inl rfl
    · rcases List.mem_singleton.mp hb with rfl
      exact Or.inr rfl
  have htb : b.time = t := by
    rcases List.mem_cons.mp hb with rfl | hb
    · rfl
    · rcases List.mem_singleton.mp hb with rfl
      rfl
  have hkb : keyOf b = (eid, lid) := by
    rcases List.mem_cons.mp hb with rfl | hb
    · rfl
    · rcases List.mem_singleton.mp hb with rfl
      rfl
  constructor
  · intro hr
    rcases hr with ⟨-, hty, -⟩ | ⟨-, hty, -, -⟩ | ⟨-, hty⟩ | ⟨hty, -⟩
    · rcases hmb with h1 | h1 <;> rw [hty] at h1 <;> cases h1
    · rcases hmb with h1 | h1 <;> rw [hty] at h1 <;> cases h1
    · rcases hmb with h1 | h1 <;> rw [hty] at h1 <;> cases h1
    · rw [htb]
      exact hc a ha (hk.trans hkb) hty
  · intro hr
    exact absurd hr (not_rel_of_mastery hmb a)

theorem not_rel_self (x : Event) : ¬ rel x x := by
  rintro (⟨h1, h2, -⟩ | ⟨h1, h2, -, -⟩ | ⟨h1, h2⟩ | ⟨h1, h2⟩) <;>
    exact absurd (h1.symm.trans h2) (by decide)

theorem ordered_singleton (x : Event) : ordered [x] := by
  intro a ha b hb hk hr
  rcases List.mem_singleton.mp ha with rfl
  rcases List.mem_singleton.mp hb with rfl
  exact absurd hr (not_rel_self _)

theorem keyOf_eq {e : Event} {eid lid : Nat} (h1 : e.eid = eid) (h2 : e.lid = lid) :
    keyOf e = (eid, lid) := by
  rw [keyOf, h1, h2]

theorem masteryEvents_keys {eid lid : Nat} {t : Int} :
    ∀ e ∈ masteryEvents eid lid t, keyOf e = (eid, lid) := by
  intro e he
  rcases List.mem_cons.mp he with rfl | he
  · rfl
  · rcases List.mem_singleton.mp he with rfl
    rfl

theorem ordered_lesson_block {eid lid : Nat} {sub : List LessonQuestion} {qIdx d n : Nat}
    (hn : sub.length ≤ n) :
    ordered (emitQuestionRange eid lid sub qIdx 0 d ++
      [⟨EType.lessonCompleted, eid, lid, none, getTimestampDaysAgo d n⟩]) := by
  rw [ordered_append]
  exact ⟨ordered_emitQuestionRange, ordered_singleton _,
    crossOrd_emitQuestionRange_completed hn⟩

theorem ordered_lesson_block_mastery {eid lid : Nat} {sub : List LessonQuestion}
    {qIdx d n : Nat} (hn : sub.length ≤ n) :
    ordered ((emitQuestionRange eid lid sub qIdx 0 d ++
      [⟨EType.lessonCompleted, eid, lid, none, getTimestampDaysAgo d n⟩]) ++
      masteryEvents eid lid (getTimestampDaysAgo d n)) := by
  rw [ordered_append]
  refine ⟨ordered_lesson_block hn, ordered_masteryEvents, crossOrd_masteryEvents ?_⟩
  intro x hx hkx hty
  rcases List.mem_append.mp hx with hx | hx
  · obtain ⟨-, -, j, -, -, -, hsty⟩ := emitQuestionRange_mem hx
    rcases hsty with h1 | h1 <;> exact absurd (hty.symm.trans h1) (by decide)
  · rcases List.mem_singleton.mp hx with rfl
    exact le_refl _

/-- The per-iteration invariant of the main pass: each lesson iteration
emits an internally ordered block, all of whose events carry the
iteration's (enrollment, lesson) key; a queued continuation satisfies
`partialSpec` against the block, a queued pending check satisfies
`pendingSpec`, at most one continuation is queued, and a pending check
is queued only when no continuation is. -/
theorem processLesson_inv (i m l eid : Nat) (lesson : LessonData)
    (avail mdays : List Nat) (dpl off : Nat)
    (hQ : lesson.questions.length ≤ 26)
    (havail : avail ≠ [])
    (hdesc : avail.Pairwise (fun a b => b < a))
    (hmin : ∀ x ∈ avail, 2 ≤ x)
    (hmdesc : mdays.Pairwise (fun a b => b < a)) :
    ordered (processLesson i m l eid lesson avail mdays dpl off).1.events ∧
    (∀ e ∈ (processLesson i m l eid lesson avail mdays dpl off).1.events,
       keyOf e = (eid, lesson.lessonId)) ∧
    (∀ p ∈ (processLesson i m l eid lesson avail mdays dpl off).1.partials,
       pkey p = (eid, lesson.lessonId) ∧
       partialSpec (processLesson i m l eid lesson avail mdays dpl off).1.events p) ∧
    (∀ pd ∈ (processLesson i m l eid lesson avail mdays dpl off).1.pendings,
       dkey pd = (eid, lesson.lessonId) ∧
       pendingSpec (processLesson i m l eid lesson avail mdays dpl off).1.events pd) ∧
    ((processLesson i m l eid lesson avail mdays dpl off).1.partials.map pkey).Nodup ∧
    ((processLesson i m l eid lesson avail mdays dpl off).1.pendings ≠ [] →
       (processLesson i m l eid lesson avail mdays dpl off).1.partials = []) := by
  have hlen : 0 < avail.length := List.length_pos.mpr havail
  have hidx : min off (avail.length - 1) < avail.length := by
    have := Nat.min_le_right off (avail.length - 1)
    omega
  have hd1mem : day1OffsetOf avail off ∈ avail := by
    unfold day1OffsetOf
    rw [List.getD_eq_getElem _ _ hidx]
    exact List.getElem_mem _
  have hd1 : 2 ≤ day1OffsetOf avail off := hmin _ hd1mem
  have hsub : (lesson.questions.take lesson.questions.length).length ≤
      lesson.questions.length := by
    rw [List.length_take]
    omega
  rw [processLesson_eq]
  by_cases hs : shouldSplitLesson i l m lesson.questions.length
  · rw [if_pos hs]
    refine ⟨ordered_emitQuestionRange, ?_, ?_, ?_, by simp, by intro h; simp at h⟩
    · intro e he
      obtain ⟨h1, h2, -⟩ := emitQuestionRange_mem he
      exact keyOf_eq h1 h2
    · intro p hp
      rcases List.mem_singleton.mp hp with rfl
      refine ⟨rfl, ?_, ?_, day1OffsetOf avail off,
        getNextWorkingDay_lt hdesc hd1, ?_⟩
      · show lesson.questions.length / 2 ≤ 25
        omega
      · show lesson.questions.length - lesson.questions.length / 2 ≤ 26
        omega
      · intro e he hk
        obtain ⟨-, -, j, hj, hq, ht, hty⟩ := emitQuestionRange_mem he
        rw [List.length_take] at hj
        refine ⟨hty, j, by simpa using hq, ?_, by simpa using ht⟩
        show j < lesson.questions.length / 2
        omega
    · intro pd hpd
      simp at hpd
  · rw [if_neg hs]
    by_cases hdl : shouldDelayMasteryCheck i l m ∧ 1 < day1OffsetOf avail off
    · rw [if_pos hdl]
      refine ⟨ordered_lesson_block hsub, ?_, by intro p hp; simp at hp, ?_, by simp,
        fun _ => rfl⟩
      · intro e he
        rcases List.mem_append.mp he with he | he
        · obtain ⟨h1, h2, -⟩ := emitQuestionRange_mem he
          exact keyOf_eq h1 h2
        · rcases List.mem_singleton.mp he with rfl
          rfl
      · intro pd hpd
        rcases List.mem_singleton.mp hpd with rfl
        refine ⟨rfl, ?_⟩
        intro e he hk hty
        rcases List.mem_append.mp he with he | he
        · obtain ⟨-, -, j, -, -, -, hsty⟩ := emitQuestionRange_mem he
          rcases hsty with h1 | h1 <;> exact absurd (hty.symm.trans h1) (by decide)
        · rcases List.mem_singleton.mp he with rfl
          have hlt : getNextWorkingDay (day1OffsetOf avail off) mdays <
              day1OffsetOf avail off :=
            getNextWorkingDay_lt hmdesc (by omega)
          show getTimestampDaysAgo (day1OffsetOf avail off) lesson.questions.length ≤
            getTimestampDaysAgo (getNextWorkingDay (day1OffsetOf avail off) mdays) 2
          rw [getTimestampDaysAgo_le]
          omega
    · rw [if_neg hdl]
      refine ⟨ordered_lesson_block_mastery hsub, ?_, by intro p hp; simp at hp,
        by intro pd hpd; simp at hpd, by simp, fun _ => rfl⟩
      intro e he
      rcases List.mem_append.mp he with he | he
      · rcases List.mem_append.mp he with he | he
        · obtain ⟨h1, h2, -⟩ := emitQuestionRange_mem he
          exact keyOf_eq h1 h2
        · rcases List.mem_singleton.mp he with rfl
          rfl
      · exact masteryEvents_keys e he

/-- The continuation-pass invariant for a single drained entry whose
first half was emitted according to `partialSpec`: the continuation's
own block is ordered, it is cross-ordered against the earlier events,
all its events carry the entry's key, and any pending mastery check it
queues satisfies `pendingSpec` against everything emitted so far. -/
theorem processContinuation_inv (p : PartialLessonProgress) (w : List (List Nat))
    {E1 : List Event} (hp : partialSpec E1 p)
    (hw : (w.getD p.moduleIndex []).Pairwise (fun a b => b < a)) :
    ordered (processContinuation p w).1 ∧
    crossOrd E1 (processContinuation p w).1 ∧
    (∀ e ∈ (processContinuation p w).1, keyOf e = pkey p) ∧
    (∀ pd ∈ (processContinuation p w).2, dkey pd = pkey p ∧
       pendingSpec (E1 ++ (processContinuation p w).1) pd) := by
  obtain ⟨hqc, hrem, d, hd, hall⟩ := hp
  have hsublen : (p.lesson.questions.drop p.questionsCompleted).length =
      p.lesson.questions.length - p.questionsCompleted := List.length_drop _ _
  have hn : (p.lesson.questions.drop p.questionsCompleted).length ≤
      p.lesson.questions.length - p.questionsCompleted := by
    rw [hsublen]
  have hkeys : ∀ e ∈ emitQuestionRange p.eid p.lesson.lessonId
      (p.lesson.questions.drop p.questionsCompleted) p.questionsCompleted 0
      p.scheduledDayOffset ++
      [⟨EType.lessonCompleted, p.eid, p.lesson.lessonId, none,
        getTimestampDaysAgo p.scheduledDayOffset
          (p.lesson.questions.length - p.questionsCompleted)⟩],
      keyOf e = pkey p := by
    intro e he
    rcases List.mem_append.mp he with he | he
    · obtain ⟨h1, h2, -⟩ := emitQuestionRange_mem he
      exact keyOf_eq h1 h2
    · rcases List.mem_singleton.mp he with rfl
      rfl
  have hcross : crossOrd E1 (emitQuestionRange p.eid p.lesson.lessonId
      (p.lesson.questions.drop p.questionsCompleted) p.questionsCompleted 0
      p.scheduledDayOffset ++
      [⟨EType.lessonCompleted, p.eid, p.lesson.lessonId, none,
        getTimestampDaysAgo p.scheduledDayOffset
          (p.lesson.questions.length - p.questionsCompleted)⟩]) := by
    rw [crossOrd_append_right]
    constructor
    · intro a ha b hb hk
      obtain ⟨hb1, hb2, jb, hjb, hqb, htb, htyb⟩ := emitQuestionRange_mem hb
      have hka : keyOf a = pkey p := hk.trans (keyOf_eq hb1 hb2)
      obtain ⟨htya, qa, hqa, hqalt, hta⟩ := hall a ha hka
      rw [hsublen] at hjb
      constructor
      · intro hr
        rcases hr with ⟨hA, hB, hq⟩ | ⟨hA, hB, -, hq⟩ | ⟨hA, hB⟩ | ⟨hA, hB⟩
        · rw [hqa, hqb] at hq
          simp at hq
          omega
        · rw [hqb, hqa] at hq
          simp at hq
          rw [hta, htb, getTimestampDaysAgo_le]
          omega
        · rcases htyb with h1 | h1 <;> exact absurd (hB.symm.trans h1) (by decide)
        · rcases htya with h1 | h1 <;> exact absurd (hA.symm.trans h1) (by decide)
      · intro hr
        rcases hr with ⟨hA, hB, hq⟩ | ⟨hA, hB, -, hq⟩ | ⟨hA, hB⟩ | ⟨hA, hB⟩
        · rw [hqa, hqb] at hq
          simp at hq
          omega
        · rw [hqa, hqb] at hq
          simp at hq
          omega
        · rcases htya with h1 | h1 <;> exact absurd (hB.symm.trans h1) (by decide)
        · rcases htyb with h1 | h1 <;> exact absurd (hA.symm.trans h1) (by decide)
    · intro a ha b hb hk
      rcases List.mem_singleton.mp hb with rfl
      obtain ⟨htya, qa, hqa, hqalt, hta⟩ := hall a ha hk
      constructor
      · intro hr
        rcases hr with ⟨-, hB, -⟩ | ⟨-, hB, -, -⟩ | ⟨hA, -⟩ | ⟨hA, -⟩
        · cases hB
        · cases hB
        · rw [hta, getTimestampDaysAgo_le]
          omega
        · rcases htya with h1 | h1 <;> exact absurd (hA.symm.trans h1) (by decide)
      · intro hr
        rcases hr with ⟨hA, -, -⟩ | ⟨hA, -, -, -⟩ | ⟨hA, -⟩ | ⟨-, hB⟩
        · cases hA
        · cases hA
        · cases hA
        · rcases htya with h1 | h1 <;> exact absurd (hB.symm.trans h1) (by decide)
  rw [processContinuation_eq]
  by_cases hdl : (p.lessonIndex + p.moduleIndex) % 5 < 2 ∧ 1 < p.scheduledDayOffset
  · rw [if_pos hdl]
    refine ⟨ordered_lesson_block hn, hcross, hkeys, ?_⟩
    intro pd hpd
    rcases List.mem_singleton.mp hpd with rfl
    refine ⟨rfl, ?_⟩
    intro e he hk hty
    have hlt : getNextWorkingDay p.scheduledDayOffset (w.getD p.moduleIndex []) <
        p.scheduledDayOffset := getNextWorkingDay_lt hw (by omega)
    rcases List.mem_append.mp he with he | he
    · obtain ⟨htya, qa, -, -, -⟩ := hall e he hk
      rcases htya with h1 | h1 <;> exact absurd (hty.symm.trans h1) (by decide)
    · rcases List.mem_append.mp he with he | he
      · obtain ⟨-, -, j, -, -, -, hsty⟩ := emitQuestionRange_mem he
        rcases hsty with h1 | h1 <;> exact absurd (hty.symm.trans h1) (by decide)
      · rcases List.mem_singleton.mp he with rfl
        show getTimestampDaysAgo p.scheduledDayOffset
            (p.lesson.questions.length - p.questionsCompleted) ≤
          getTimestampDaysAgo
            (getNextWorkingDay p.scheduledDayOffset (w.getD p.moduleIndex [])) 2
        rw [getTimestampDaysAgo_le]
        omega
  · rw [if_neg hdl]
    refine ⟨ordered_lesson_block_mastery hn, ?_, ?_, by intro pd hpd; simp at hpd⟩
    · rw [crossOrd_append_right]
      refine ⟨hcross, crossOrd_masteryEvents ?_⟩
      intro x hx hkx hty
      obtain ⟨htya, qa, -, -, -⟩ := hall x hx hkx
      rcases htya with h1 | h1 <;> exact absurd (hty.symm.trans h1) (by decide)
    · intro e he
      rcases List.mem_append.mp he with he | he
      · exact hkeys e he
      · exact masteryEvents_keys e he

theorem SeedAcc_app_events (a b : SeedAcc) :
    (SeedAcc.app a b).events = a.events ++ b.events := rfl

theorem SeedAcc_app_partials (a b : SeedAcc) :
    (SeedAcc.app a b).partials = a.partials ++ b.partials := rfl

theorem SeedAcc_app_pendings (a b : SeedAcc) :
    (SeedAcc.app a b).pendings = a.pendings ++ b.pendings := rfl

theorem keyOf_eq_iff {e : Event} {a b : Nat} :
    keyOf e = (a, b) ↔ e.eid = a ∧ e.lid = b := by
  unfold keyOf
  simp [Prod.ext_iff]

theorem pkey_eq_iff {p : PartialLessonProgress} {a b : Nat} :
    pkey p = (a, b) ↔ p.eid = a ∧ p.lesson.lessonId = b := by
  unfold pkey
  simp [Prod.ext_iff]

theorem dkey_eq_iff {pd : PendingMasteryCheck} {a b : Nat} :
    dkey pd = (a, b) ↔ pd.eid = a ∧ pd.lesson.lessonId = b := by
  unfold dkey
  simp [Prod.ext_iff]

/-- The lesson-loop invariant for a single student and module: the
emitted events are ordered, every event/queue entry carries the
student's id and the lesson id of one of the iterated lessons, queued
continuations and pending checks satisfy their specs against all events
of the loop, continuation keys are distinct, and a pending check's key
never collides with a continuation's. -/
theorem lessonLoop_inv (i m eid : Nat) (lessons : List LessonData)
    (avail mdays : List Nat) (dpl : Nat)
    (hQ : ∀ j, (lessons.getD j defaultLessonData).questions.length ≤ 26)
    (havail : avail ≠ [])
    (hdesc : avail.Pairwise (fun a b => b < a))
    (hmin : ∀ x ∈ avail, 2 ≤ x)
    (hmdesc : mdays.Pairwise (fun a b => b < a))
    (hinj : ∀ j k, j < lessons.length → k < lessons.length → j ≠ k →
      (lessons.getD j defaultLessonData).lessonId ≠
        (lessons.getD k defaultLessonData).lessonId) :
    ∀ (rem l off : Nat), l + rem ≤ lessons.length →
      ordered (lessonLoop i m eid lessons avail mdays dpl l rem off).events ∧
      (∀ e ∈ (lessonLoop i m eid lessons avail mdays dpl l rem off).events,
        e.eid = eid ∧ ∃ j, l ≤ j ∧ j < l + rem ∧
          e.lid = (lessons.getD j defaultLessonData).lessonId) ∧
      (∀ p ∈ (lessonLoop i m eid lessons avail mdays dpl l rem off).partials,
        p.eid = eid ∧ (∃ j, l ≤ j ∧ j < l + rem ∧
          p.lesson.lessonId = (lessons.getD j defaultLessonData).lessonId) ∧
        partialSpec (lessonLoop i m eid lessons avail mdays dpl l rem off).events p) ∧
      (∀ pd ∈ (lessonLoop i m eid lessons avail mdays dpl l rem off).pendings,
        pd.eid = eid ∧ (∃ j, l ≤ j ∧ j < l + rem ∧
          pd.lesson.lessonId = (lessons.getD j defaultLessonData).lessonId) ∧
        pendingSpec (lessonLoop i m eid lessons avail mdays dpl l rem off).events pd ∧
        dkey pd ∉
          (lessonLoop i m eid lessons avail mdays dpl l rem off).partials.map pkey) ∧
      ((lessonLoop i m eid lessons avail mdays dpl l rem off).partials.map pkey).Nodup
  | 0, l, off, hb => by
    refine ⟨?_, ?_, ?_, ?_, ?_⟩ <;> simp [lessonLoop]
    exact fun a ha b hb hk hr => absurd ha (List.not_mem_nil a)
  | rem + 1, l, off, hb => by
    have hL := processLesson_inv i m l eid (lessons.getD l defaultLessonData)
      avail mdays dpl off (hQ l) havail hdesc hmin hmdesc
    have ih := lessonLoop_inv i m eid lessons avail mdays dpl hQ havail hdesc hmin
      hmdesc hinj rem (l + 1)
      (processLesson i m l eid (lessons.getD l defaultLessonData) avail mdays dpl off).2
      (by omega)
    have heq : lessonLoop i m eid lessons avail mdays dpl l (rem + 1) off =
        SeedAcc.app
          (processLesson i m l eid (lessons.getD l defaultLessonData)
            avail mdays dpl off).1
          (lessonLoop i m eid lessons avail mdays dpl (l + 1) rem
            (processLesson i m l eid (lessons.getD l defaultLessonData)
              avail mdays dpl off).2) := rfl
    rw [heq, SeedAcc_app_events, SeedAcc_app_partials, SeedAcc_app_pendings]
    obtain ⟨hLord, hLkeys, hLpart, hLpend, hLnd, hLexcl⟩ := hL
    obtain ⟨ihord, ihkeys, ihpart, ihpend, ihnd⟩ := ih
    have hllt : l < lessons.length := by omega
    -- the head block's lesson id differs from every rest lesson id
    have hne : ∀ j, l + 1 ≤ j → j < l + 1 + rem →
        (lessons.getD l defaultLessonData).lessonId ≠
          (lessons.getD j defaultLessonData).lessonId := by
      intro j hj1 hj2
      exact hinj l j hllt (by omega) (by omega)
    have hkdisj : ∀ a ∈ (processLesson i m l eid (lessons.getD l defaultLessonData)
        avail mdays dpl off).1.events,
        ∀ b ∈ (lessonLoop i m eid lessons avail mdays dpl (l + 1) rem
          (processLesson i m l eid (lessons.getD l defaultLessonData)
            avail mdays dpl off).2).events,
        keyOf a ≠ keyOf b := by
      intro a ha b hb
      obtain ⟨hbe, j, hj1, hj2, hbl⟩ := ihkeys b hb
      rw [hLkeys a ha, keyOf, hbe, hbl]
      intro hcon
      exact hne j hj1 hj2 (Prod.ext_iff.mp hcon.symm).2.symm
    refine ⟨?_, ?_, ?_, ?_, ?_⟩
    · rw [ordered_append]
      exact ⟨hLord, ihord, crossOrd_of_ne hkdisj⟩
    · intro e he
      rcases List.mem_append.mp he with he | he
      · obtain ⟨h1, h2⟩ := keyOf_eq_iff.mp (hLkeys e he)
        exact ⟨h1, l, by omega, by omega, h2⟩
      · obtain ⟨h1, j, hj1, hj2, h2⟩ := ihkeys e he
        exact ⟨h1, j, by omega, by omega, h2⟩
    · intro p hp
      rcases List.mem_append.mp hp with hp | hp
      · obtain ⟨hk, hspec⟩ := hLpart p hp
        obtain ⟨h1, h2⟩ := pkey_eq_iff.mp hk
        refine ⟨h1, ⟨l, by omega, by omega, h2⟩, ?_⟩
        refine partialSpec_append hspec ?_
        intro e he hcon
        obtain ⟨hbe, j, hj1, hj2, hbl⟩ := ihkeys e he
        have hlid : e.lid = (lessons.getD l defaultLessonData).lessonId :=
          (keyOf_eq_iff.mp (hcon.trans hk)).2
        exact hne j hj1 hj2 (hlid.symm.trans hbl)
      · obtain ⟨h1, ⟨j, hj1, hj2, h2⟩, hspec⟩ := ihpart p hp
        refine ⟨h1, ⟨j, by omega, by omega, h2⟩, ?_⟩
        refine partialSpec_append_left hspec ?_
        intro e he hcon
        have hkp : pkey p = (eid, (lessons.getD l defaultLessonData).lessonId) :=
          hcon.symm.trans (hLkeys e he)
        exact hne j hj1 hj2 ((pkey_eq_iff.mp hkp).2.symm.trans h2)
    · intro pd hpd
      rcases List.mem_append.mp hpd with hpd | hpd
      · obtain ⟨hk, hspec⟩ := hLpend pd hpd
        obtain ⟨h1, h2⟩ := dkey_eq_iff.mp hk
        have hLempty : (processLesson i m l eid (lessons.getD l defaultLessonData)
            avail mdays dpl off).1.partials = [] :=
          hLexcl (List.ne_nil_of_mem hpd)
        refine ⟨h1, ⟨l, by omega, by omega, h2⟩, ?_, ?_⟩
        · rw [pendingSpec_append_iff]
          refine ⟨hspec, pendingSpec_of_ne ?_⟩
          intro e he hcon
          obtain ⟨hbe, j, hj1, hj2, hbl⟩ := ihkeys e he
          have hlid : e.lid = (lessons.getD l defaultLessonData).lessonId :=
            (keyOf_eq_iff.mp (hcon.trans hk)).2
          exact hne j hj1 hj2 (hlid.symm.trans hbl)
        · rw [List.map_append, hLempty]
          simp only [List.map_nil, List.nil_append]
          intro hcon
          obtain ⟨p', hp', hkp'⟩ := List.mem_map.mp hcon
          obtain ⟨-, ⟨j, hj1, hj2, h2'⟩, -⟩ := ihpart p' hp'
          have hkp2 : pkey p' = (eid, (lessons.getD l defaultLessonData).lessonId) :=
            hkp'.trans hk
          exact hne j hj1 hj2 ((pkey_eq_iff.mp hkp2).2.symm.trans h2')
      · obtain ⟨h1, ⟨j, hj1, hj2, h2⟩, hspec, hnotin⟩ := ihpend pd hpd
        refine ⟨h1, ⟨j, by omega, by omega, h2⟩, ?_, ?_⟩
        · rw [pendingSpec_append_iff]
          refine ⟨pendingSpec_of_ne ?_, hspec⟩
          intro e he hcon
          have hkd : dkey pd = (eid, (lessons.getD l defaultLessonData).lessonId) :=
            hcon.symm.trans (hLkeys e he)
          exact hne j hj1 hj2 ((dkey_eq_iff.mp hkd).2.symm.trans h2)
        · rw [List.map_append]
          intro hcon
          rcases List.mem_append.mp hcon with hcon | hcon
          · obtain ⟨p', hp', hkp'⟩ := List.mem_map.mp hcon
            obtain ⟨hk', -⟩ := hLpart p' hp'
            have hkd : dkey pd = (eid, (lessons.getD l defaultLessonData).lessonId) :=
              hkp'.symm.trans hk'
            exact hne j hj1 hj2 ((dkey_eq_iff.mp hkd).2.symm.trans h2)
          · exact hnotin hcon
    · rw [List.map_append]
      refine List.Nodup.append hLnd ihnd ?_
      intro k hk1 hk2
      obtain ⟨p1, hp1, hkp1⟩ := List.mem_map.mp hk1
      obtain ⟨p2, hp2, hkp2⟩ := List.mem_map.mp hk2
      obtain ⟨hk1', -⟩ := hLpart p1 hp1
      obtain ⟨-, ⟨j, hj1, hj2, h2'⟩, -⟩ := ihpart p2 hp2
      have hkp3 : pkey p2 = (eid, (lessons.getD l defaultLessonData).lessonId) :=
        hkp2.trans (hkp1.symm.trans hk1')
      exact hne j hj1 hj2 ((pkey_eq_iff.mp hkp3).2.symm.trans h2')

theorem ordered_nil : ordered [] := fun a ha => absurd ha (List.not_mem_nil a)

/-- The per-module invariant: outputs of `processModule` are ordered and
key-tagged with the student's id and one of the module's lesson ids, the
queue entries satisfy their specs, continuation keys are distinct, and
pending keys avoid continuation keys. -/
theorem processModule_inv (i N eid m : Nat) (ml : List LessonData) (mdays : List Nat)
    (hQ : ∀ L ∈ ml, L.questions.length ≤ 26)
    (hnd : (ml.map (fun L => L.lessonId)).Nodup)
    (hmdesc : mdays.Pairwise (fun a b => b < a))
    (hmmin : ∀ x ∈ mdays, 2 ≤ x) :
    ordered (processModule i N eid m ml mdays).events ∧
    (∀ e ∈ (processModule i N eid m ml mdays).events,
      e.eid = eid ∧ e.lid ∈ ml.map (fun L => L.lessonId)) ∧
    (∀ p ∈ (processModule i N eid m ml mdays).partials,
      p.eid = eid ∧ p.lesson.lessonId ∈ ml.map (fun L => L.lessonId) ∧
      partialSpec (processModule i N eid m ml mdays).events p) ∧
    (∀ pd ∈ (processModule i N eid m ml mdays).pendings,
      pd.eid = eid ∧ pd.lesson.lessonId ∈ ml.map (fun L => L.lessonId) ∧
      pendingSpec (processModule i N eid m ml mdays).events pd ∧
      dkey pd ∉ (processModule i N eid m ml mdays).partials.map pkey) ∧
    ((processModule i N eid m ml mdays).partials.map pkey).Nodup := by
  by_cases h1 : mdays.length = 0
  · rw [show processModule i N eid m ml mdays = ⟨[], [], []⟩ from by
      simp [processModule, h1]]
    exact ⟨ordered_nil, by simp, by simp, by simp, by simp⟩
  · by_cases h2 : lessonsToCompleteInModule ml.length i = 0
    · rw [show processModule i N eid m ml mdays = ⟨[], [], []⟩ from by
        simp [processModule, h1, h2]]
      exact ⟨ordered_nil, by simp, by simp, by simp, by simp⟩
    · by_cases h3 : (mdays.drop (startDayIndexOf i N mdays.length)).length = 0
      · rw [show processModule i N eid m ml mdays = ⟨[], [], []⟩ from by
          simp only [processModule]
          rw [if_neg h1, if_neg h2, if_pos h3]]
        exact ⟨ordered_nil, by simp, by simp, by simp, by simp⟩
      · have hml : processModule i N eid m ml mdays =
            lessonLoop i m eid ml (mdays.drop (startDayIndexOf i N mdays.length)) mdays
              (max 1 ((mdays.drop (startDayIndexOf i N mdays.length)).length /
                lessonsToCompleteInModule ml.length i))
              0 (lessonsToCompleteInModule ml.length i) 0 := by
          simp only [processModule]
          rw [if_neg h1, if_neg h2, if_neg h3]
        have hQ' : ∀ j, (ml.getD j defaultLessonData).questions.length ≤ 26 := by
          intro j
          by_cases hj : j < ml.length
          · rw [List.getD_eq_getElem _ _ hj]
            exact hQ _ (List.getElem_mem hj)
          · rw [List.getD_eq_default _ _ (by omega)]
            simp [defaultLessonData]
        have hinj : ∀ j k, j < ml.length → k < ml.length → j ≠ k →
            (ml.getD j defaultLessonData).lessonId ≠
              (ml.getD k defaultLessonData).lessonId := by
          intro j k hj hk hjk heq
          rw [List.getD_eq_getElem _ _ hj, List.getD_eq_getElem _ _ hk] at heq
          have h4 : (ml.map (fun L => L.lessonId)).get ⟨j, by simpa using hj⟩ =
              (ml.map (fun L => L.lessonId)).get ⟨k, by simpa using hk⟩ := by
            rw [List.get_map, List.get_map]
            simpa using heq
          have h5 := List.nodup_iff_injective_get.mp hnd h4
          simp at h5
          exact hjk h5
        have havail : mdays.drop (startDayIndexOf i N mdays.length) ≠ [] := by
          intro hnil
          exact h3 (by simp [hnil])
        have hdesc2 : (mdays.drop (startDayIndexOf i N mdays.length)).Pairwise
            (fun a b => b < a) :=
          List.Pairwise.sublist (List.drop_sublist _ _) hmdesc
        have hmin2 : ∀ x ∈ mdays.drop (startDayIndexOf i N mdays.length), 2 ≤ x :=
          fun x hx => hmmin x (List.mem_of_mem_drop hx)
        have hinv := lessonLoop_inv i m eid ml
          (mdays.drop (startDayIndexOf i N mdays.length)) mdays
          (max 1 ((mdays.drop (startDayIndexOf i N mdays.length)).length /
            lessonsToCompleteInModule ml.length i))
          hQ' havail hdesc2 hmin2 hmdesc hinj
          (lessonsToCompleteInModule ml.length i) 0 0
          (by simpa using lessonsToComplete_le i ml.length)
        obtain ⟨hord, hkeys, hpart, hpend, hndk⟩ := hinv
        have hmem : ∀ j, j < ml.length →
            (ml.getD j defaultLessonData).lessonId ∈ ml.map (fun L => L.lessonId) := by
          intro j hj
          rw [List.getD_eq_getElem _ _ hj]
          exact List.mem_map_of_mem _ (List.getElem_mem hj)
        have hcnt : lessonsToCompleteInModule ml.length i ≤ ml.length :=
          lessonsToComplete_le i ml.length
        rw [hml]
        refine ⟨hord, ?_, ?_, ?_, hndk⟩
        · intro e he
          obtain ⟨h4, j, hj1, hj2, h5⟩ := hkeys e he
          exact ⟨h4, h5 ▸ hmem j (by omega)⟩
        · intro p hp
          obtain ⟨h4, ⟨j, hj1, hj2, h5⟩, hspec⟩ := hpart p hp
          exact ⟨h4, h5 ▸ hmem j (by omega), hspec⟩
        · intro pd hpd
          obtain ⟨h4, ⟨j, hj1, hj2, h5⟩, hspec, hni⟩ := hpend pd hpd
          exact ⟨h4, h5 ▸ hmem j (by omega), hspec, hni⟩

/-- The module-loop invariant for one student: lesson ids across modules
are distinct, so the per-module outputs are key-disjoint and all the
per-module facts lift. -/
theorem moduleLoop_inv (i N eid : Nat) (windows : List (List Nat))
    (hw : ∀ k, ((windows.getD k []).Pairwise (fun a b => b < a)) ∧
      (∀ x ∈ windows.getD k [], 2 ≤ x)) :
    ∀ (m : Nat) (mods : List (List LessonData)),
      (∀ ml ∈ mods, ∀ L ∈ ml, L.questions.length ≤ 26) →
      ((mods.flatten).map (fun L => L.lessonId)).Nodup →
      ordered (moduleLoop i N eid windows m mods).events ∧
      (∀ e ∈ (moduleLoop i N eid windows m mods).events,
        e.eid = eid ∧ e.lid ∈ (mods.flatten).map (fun L => L.lessonId)) ∧
      (∀ p ∈ (moduleLoop i N eid windows m mods).partials,
        p.eid = eid ∧ p.lesson.lessonId ∈ (mods.flatten).map (fun L => L.lessonId) ∧
        partialSpec (moduleLoop i N eid windows m mods).events p) ∧
      (∀ pd ∈ (moduleLoop i N eid windows m mods).pendings,
        pd.eid = eid ∧ pd.lesson.lessonId ∈ (mods.flatten).map (fun L => L.lessonId) ∧
        pendingSpec (moduleLoop i N eid windows m mods).events pd ∧
        dkey pd ∉ (moduleLoop i N eid windows m mods).partials.map pkey) ∧
      ((moduleLoop i N eid windows m mods).partials.map pkey).Nodup
  | m, [], _, _ => by
    exact ⟨ordered_nil, by simp [moduleLoop], by simp [moduleLoop],
      by simp [moduleLoop], by simp [moduleLoop]⟩
  | m, ml :: rest, hQ, hnd => by
    have hndsplit := by
      rw [List.flatten_cons, List.map_append] at hnd
      exact List.nodup_append.mp hnd
    have hM := processModule_inv i N eid m ml (windows.getD m [])
      (hQ ml (by simp)) hndsplit.1 (hw m).1 (hw m).2
    have ih := moduleLoop_inv i N eid windows hw (m + 1) rest
      (fun ml2 h => hQ ml2 (by simp [h])) hndsplit.2.1
    obtain ⟨hMord, hMkeys, hMpart, hMpend, hMnd⟩ := hM
    obtain ⟨ihord, ihkeys, ihpart, ihpend, ihnd⟩ := ih
    have heq : moduleLoop i N eid windows m (ml :: rest) =
        SeedAcc.app (processModule i N eid m ml (windows.getD m []))
          (moduleLoop i N eid windows (m + 1) rest) := rfl
    rw [heq, SeedAcc_app_events, SeedAcc_app_partials, SeedAcc_app_pendings]
    have hkne : ∀ l1 l2 : Nat, l1 ∈ ml.map (fun L => L.lessonId) →
        l2 ∈ (rest.flatten).map (fun L => L.lessonId) → l1 = l2 → False := by
      intro l1 l2 hm1 hm2 heq2
      exact hndsplit.2.2 hm1 (heq2 ▸ hm2)
    have hmemL : ∀ x : Nat, x ∈ ml.map (fun L => L.lessonId) →
        x ∈ ((ml :: rest).flatten).map (fun L => L.lessonId) := by
      intro x hx
      rw [List.flatten_cons, List.map_append]
      exact List.mem_append.mpr (Or.inl hx)
    have hmemR : ∀ x : Nat, x ∈ (rest.flatten).map (fun L => L.lessonId) →
        x ∈ ((ml :: rest).flatten).map (fun L => L.lessonId) := by
      intro x hx
      rw [List.flatten_cons, List.map_append]
      exact List.mem_append.mpr (Or.inr hx)
    have hkdisj : ∀ a ∈ (processModule i N eid m ml (windows.getD m [])).events,
        ∀ b ∈ (moduleLoop i N eid windows (m + 1) rest).events,
        keyOf a ≠ keyOf b := by
      intro a ha b hb hcon
      obtain ⟨hae, ham⟩ := hMkeys a ha
      obtain ⟨hbe, hbm⟩ := ihkeys b hb
      exact hkne a.lid b.lid ham hbm (Prod.ext_iff.mp hcon).2
    refine ⟨?_, ?_, ?_, ?_, ?_⟩
    · rw [ordered_append]
      exact ⟨hMord, ihord, crossOrd_of_ne hkdisj⟩
    · intro e he
      rcases List.mem_append.mp he with he | he
      · obtain ⟨h4, h5⟩ := hMkeys e he
        exact ⟨h4, hmemL _ h5⟩
      · obtain ⟨h4, h5⟩ := ihkeys e he
        exact ⟨h4, hmemR _ h5⟩
    · intro p hp
      rcases List.mem_append.mp hp with hp | hp
      · obtain ⟨h4, h5, hspec⟩ := hMpart p hp
        refine ⟨h4, hmemL _ h5, partialSpec_append hspec ?_⟩
        intro e he hcon
        obtain ⟨hbe, hbm⟩ := ihkeys e he
        have hlid : e.lid = p.lesson.lessonId := (Prod.ext_iff.mp hcon).2
        exact hkne p.lesson.lessonId e.lid h5 hbm hlid.symm
      · obtain ⟨h4, h5, hspec⟩ := ihpart p hp
        refine ⟨h4, hmemR _ h5, partialSpec_append_left hspec ?_⟩
        intro e he hcon
        obtain ⟨hbe, hbm⟩ := hMkeys e he
        have hlid : e.lid = p.lesson.lessonId := (Prod.ext_iff.mp hcon).2
        exact hkne e.lid p.lesson.lessonId hbm h5 hlid
    · intro pd hpd
      rcases List.mem_append.mp hpd with hpd | hpd
      · obtain ⟨h4, h5, hspec, hni⟩ := hMpend pd hpd
        refine ⟨h4, hmemL _ h5, ?_, ?_⟩
        · rw [pendingSpec_append_iff]
          refine ⟨hspec, pendingSpec_of_ne ?_⟩
          intro e he hcon
          obtain ⟨hbe, hbm⟩ := ihkeys e he
          have hlid : e.lid = pd.lesson.lessonId := (Prod.ext_iff.mp hcon).2
          exact hkne pd.lesson.lessonId e.lid h5 hbm hlid.symm
        · rw [List.map_append]
          intro hcon
          rcases List.mem_append.mp hcon with hcon | hcon
          · exact hni hcon
          · obtain ⟨p2, hp2, hkp2⟩ := List.mem_map.mp hcon
            obtain ⟨-, h52, -⟩ := ihpart p2 hp2
            have hlid : p2.lesson.lessonId = pd.lesson.lessonId :=
              (Prod.ext_iff.mp hkp2).2
            exact hkne pd.lesson.lessonId p2.lesson.lessonId h5 h52 hlid.symm
      · obtain ⟨h4, h5, hspec, hni⟩ := ihpend pd hpd
        refine ⟨h4, hmemR _ h5, ?_, ?_⟩
        · rw [pendingSpec_append_iff]
          refine ⟨pendingSpec_of_ne ?_, hspec⟩
          intro e he hcon
          obtain ⟨hbe, hbm⟩ := hMkeys e he
          have hlid : e.lid = pd.lesson.lessonId := (Prod.ext_iff.mp hcon).2
          exact hkne e.lid pd.lesson.lessonId hbm h5 hlid
        · rw [List.map_append]
          intro hcon
          rcases List.mem_append.mp hcon with hcon | hcon
          · obtain ⟨p2, hp2, hkp2⟩ := List.mem_map.mp hcon
            obtain ⟨-, h52, -⟩ := hMpart p2 hp2
            have hlid : p2.lesson.lessonId = pd.lesson.lessonId :=
              (Prod.ext_iff.mp hkp2).2
            exact hkne p2.lesson.lessonId pd.lesson.lessonId h52 h5 hlid
          · exact hni hcon
    · rw [List.map_append]
      refine List.Nodup.append hMnd ihnd ?_
      intro k hk1 hk2
      obtain ⟨p1, hp1, hkp1⟩ := List.mem_map.mp hk1
      obtain ⟨p2, hp2, hkp2⟩ := List.mem_map.mp hk2
      obtain ⟨-, h51, -⟩ := hMpart p1 hp1
      obtain ⟨-, h52, -⟩ := ihpart p2 hp2
      have hlid : p1.lesson.lessonId = p2.lesson.lessonId :=
        (Prod.ext_iff.mp (hkp1.trans hkp2.symm)).2
      exact hkne p1.lesson.lessonId p2.lesson.lessonId h51 h52 hlid

/-- The student-loop invariant: with distinct enrollment ids, the
per-student outputs are key-disjoint and all per-student facts lift to
the whole main pass. -/
theorem studentLoop_inv (N : Nat) (lbm : List (List LessonData))
    (windows : List (List Nat))
    (hw : ∀ k, ((windows.getD k []).Pairwise (fun a b => b < a)) ∧
      (∀ x ∈ windows.getD k [], 2 ≤ x))
    (hQ : ∀ ml ∈ lbm, ∀ L ∈ ml, L.questions.length ≤ 26)
    (hnd : ((lbm.flatten).map (fun L => L.lessonId)).Nodup) :
    ∀ (i : Nat) (eids : List Nat), eids.Nodup →
      ordered (studentLoop N lbm windows i eids).events ∧
      (∀ e ∈ (studentLoop N lbm windows i eids).events, e.eid ∈ eids) ∧
      (∀ p ∈ (studentLoop N lbm windows i eids).partials, p.eid ∈ eids ∧
        partialSpec (studentLoop N lbm windows i eids).events p) ∧
      (∀ pd ∈ (studentLoop N lbm windows i eids).pendings, pd.eid ∈ eids ∧
        pendingSpec (studentLoop N lbm windows i eids).events pd ∧
        dkey pd ∉ (studentLoop N lbm windows i eids).partials.map pkey) ∧
      ((studentLoop N lbm windows i eids).partials.map pkey).Nodup
  | i, [], _ => by
    exact ⟨ordered_nil, by simp [studentLoop], by simp [studentLoop],
      by simp [studentLoop], by simp [studentLoop]⟩
  | i, eid :: rest, hndup => by
    have hnotin : eid ∉ rest := (List.nodup_cons.mp hndup).1
    have hS := moduleLoop_inv i N eid windows hw 0 lbm hQ hnd
    have ih := studentLoop_inv N lbm windows hw hQ hnd (i + 1) rest
      (List.nodup_cons.mp hndup).2
    obtain ⟨hSord, hSkeys, hSpart, hSpend, hSnd⟩ := hS
    obtain ⟨ihord, ihkeys, ihpart, ihpend, ihnd⟩ := ih
    have heq : studentLoop N lbm windows i (eid :: rest) =
        SeedAcc.app (moduleLoop i N eid windows 0 lbm)
          (studentLoop N lbm windows (i + 1) rest) := rfl
    rw [heq, SeedAcc_app_events, SeedAcc_app_partials, SeedAcc_app_pendings]
    have hkdisj : ∀ a ∈ (moduleLoop i N eid windows 0 lbm).events,
        ∀ b ∈ (studentLoop N lbm windows (i + 1) rest).events,
        keyOf a ≠ keyOf b := by
      intro a ha b hb hcon
      have h1 : a.eid = eid := (hSkeys a ha).1
      have h2 : b.eid ∈ rest := ihkeys b hb
      have h3 : a.eid = b.eid := (Prod.ext_iff.mp hcon).1
      exact hnotin (h1 ▸ h3 ▸ h2)
    refine ⟨?_, ?_, ?_, ?_, ?_⟩
    · rw [ordered_append]
      exact ⟨hSord, ihord, crossOrd_of_ne hkdisj⟩
    · intro e he
      rcases List.mem_append.mp he with he | he
      · exact List.mem_cons.mpr (Or.inl (hSkeys e he).1)
      · exact List.mem_cons.mpr (Or.inr (ihkeys e he))
    · intro p hp
      rcases List.mem_append.mp hp with hp | hp
      · obtain ⟨h4, -, hspec⟩ := hSpart p hp
        refine ⟨List.mem_cons.mpr (Or.inl h4), partialSpec_append hspec ?_⟩
        intro e he hcon
        have h5 : e.eid ∈ rest := ihkeys e he
        have h6 : e.eid = p.eid := (Prod.ext_iff.mp hcon).1
        exact hnotin (h4 ▸ h6 ▸ h5)
      · obtain ⟨h4, hspec⟩ := ihpart p hp
        refine ⟨List.mem_cons.mpr (Or.inr h4), partialSpec_append_left hspec ?_⟩
        intro e he hcon
        have h5 : e.eid = eid := (hSkeys e he).1
        have h6 : e.eid = p.eid := (Prod.ext_iff.mp hcon).1
        exact hnotin (by rw [← h5, h6]; exact h4)
    · intro pd hpd
      rcases List.mem_append.mp hpd with hpd | hpd
      · obtain ⟨h4, -, hspec, hni⟩ := hSpend pd hpd
        refine ⟨List.mem_cons.mpr (Or.inl h4), ?_, ?_⟩
        · rw [pendingSpec_append_iff]
          refine ⟨hspec, pendingSpec_of_ne ?_⟩
          intro e he hcon
          have h5 : e.eid ∈ rest := ihkeys e he
          have h6 : e.eid = pd.eid := (Prod.ext_iff.mp hcon).1
          exact hnotin (h4 ▸ h6 ▸ h5)
        · rw [List.map_append]
          intro hcon
          rcases List.mem_append.mp hcon with hcon | hcon
          · exact hni hcon
          · obtain ⟨p2, hp2, hkp2⟩ := List.mem_map.mp hcon
            have h5 : p2.eid ∈ rest := (ihpart p2 hp2).1
            have h6 : p2.eid = pd.eid := (Prod.ext_iff.mp hkp2).1
            exact hnotin (h4 ▸ h6 ▸ h5)
      · obtain ⟨h4, hspec, hni⟩ := ihpend pd hpd
        refine ⟨List.mem_cons.mpr (Or.inr h4), ?_, ?_⟩
        · rw [pendingSpec_append_iff]
          refine ⟨pendingSpec_of_ne ?_, hspec⟩
          intro e he hcon
          have h5 : e.eid = eid := (hSkeys e he).1
          have h6 : e.eid = pd.eid := (Prod.ext_iff.mp hcon).1
          exact hnotin (by rw [← h5, h6]; exact h4)
        · rw [List.map_append]
          intro hcon
          rcases List.mem_append.mp hcon with hcon | hcon
          · obtain ⟨p2, hp2, hkp2⟩ := List.mem_map.mp hcon
            have h5 : p2.eid = eid := (hSpart p2 hp2).1
            have h6 : p2.eid = pd.eid := (Prod.ext_iff.mp hkp2).1
            exact hnotin (by rw [← h5, h6]; exact h4)
          · exact hni hcon
    · rw [List.map_append]
      refine List.Nodup.append hSnd ihnd ?_
      intro k hk1 hk2
      obtain ⟨p1, hp1, hkp1⟩ := List.mem_map.mp hk1
      obtain ⟨p2, hp2, hkp2⟩ := List.mem_map.mp hk2
      have h5 : p1.eid = eid := (hSpart p1 hp1).1
      have h6 : p2.eid ∈ rest := (ihpart p2 hp2).1
      have h7 : p1.eid = p2.eid := (Prod.ext_iff.mp (hkp1.trans hkp2.symm)).1
      exact hnotin (by rw [← h5, h7]; exact h6)

theorem processPending_mem {pd : PendingMasteryCheck} {b : Event}
    (hb : b ∈ processPending pd) :
    keyOf b = dkey pd ∧ b.time = getTimestampDaysAgo pd.scheduledDayOffset 2 ∧
    (b.etype = EType.masteryResponse ∨ b.etype = EType.masteryCompleted) := by
  unfold processPending masteryEvents at hb
  rcases List.mem_cons.mp hb with rfl | hb
  · exact ⟨rfl, rfl, Or.inl rfl⟩
  · rcases List.mem_singleton.mp hb with rfl
    exact ⟨rfl, rfl, Or.inr rfl⟩

/-- The pending-mastery-check drain: its events are mastery-typed (so
internally unordered by `rel`) and each completion emitted earlier for
the same pair precedes the drain timestamp. -/
theorem pendingDrain_inv (E : List Event) (PD : List PendingMasteryCheck)
    (hPD : ∀ pd ∈ PD, pendingSpec E pd) :
    ordered (PD.flatMap processPending) ∧ crossOrd E (PD.flatMap processPending) := by
  constructor
  · intro a ha b hb hk hr
    obtain ⟨pd, hpd, hmem⟩ := List.mem_flatMap.mp ha
    exact absurd hr (not_rel_of_mastery (processPending_mem hmem).2.2 b)
  · intro a ha b hb hk
    obtain ⟨pd, hpd, hmem⟩ := List.mem_flatMap.mp hb
    obtain ⟨hkb, htb, htyb⟩ := processPending_mem hmem
    constructor
    · intro hr
      rcases hr with ⟨-, hty, -⟩ | ⟨-, hty, -, -⟩ | ⟨-, hty⟩ | ⟨hty, -⟩
      · rcases htyb with h1 | h1 <;> exact absurd (hty.symm.trans h1) (by decide)
      · rcases htyb with h1 | h1 <;> exact absurd (hty.symm.trans h1) (by decide)
      · rcases htyb with h1 | h1 <;> exact absurd (hty.symm.trans h1) (by decide)
      · rw [htb]
        exact hPD pd hpd a ha (hk.trans hkb) hty
    · intro hr
      exact absurd hr (not_rel_of_mastery htyb a)

/-- The continuation-pass invariant over the whole split queue: blocks
are ordered and cross-ordered against the main pass, events stay inside
the queued keys, and queued pending checks satisfy `pendingSpec`
against everything emitted so far. -/
theorem continuationLoop_inv (w : List (List Nat)) (E1 : List Event)
    (hw : ∀ k, (w.getD k []).Pairwise (fun a b => b < a)) :
    ∀ P : List PartialLessonProgress,
      (∀ p ∈ P, partialSpec E1 p) → (P.map pkey).Nodup →
      ordered (continuationLoop w P).1 ∧
      crossOrd E1 (continuationLoop w P).1 ∧
      (∀ e ∈ (continuationLoop w P).1, keyOf e ∈ P.map pkey) ∧
      (∀ pd ∈ (continuationLoop w P).2, dkey pd ∈ P.map pkey ∧
        pendingSpec (E1 ++ (continuationLoop w P).1) pd)
  | [], _, _ => by
    refine ⟨ordered_nil, ?_, by simp [continuationLoop], by simp [continuationLoop]⟩
    intro a ha b hb
    exact absurd hb (List.not_mem_nil b)
  | p :: rest, hp, hndk => by
    have hC := processContinuation_inv p w (hp p (by simp)) (hw p.moduleIndex)
    have ih := continuationLoop_inv w E1 hw rest (fun q hq => hp q (by simp [hq]))
      (List.nodup_cons.mp hndk).2
    have hpnotin : pkey p ∉ rest.map pkey := (List.nodup_cons.mp hndk).1
    obtain ⟨hCord, hCcross, hCkeys, hCpend⟩ := hC
    obtain ⟨ihord, ihcross, ihkeys, ihpend⟩ := ih
    have heq : continuationLoop w (p :: rest) =
        ((processContinuation p w).1 ++ (continuationLoop w rest).1,
         (processContinuation p w).2 ++ (continuationLoop w rest).2) := rfl
    rw [heq]
    refine ⟨?_, ?_, ?_, ?_⟩
    · rw [ordered_append]
      refine ⟨hCord, ihord, crossOrd_of_ne ?_⟩
      intro a ha b hb hcon
      have h1 : keyOf a = pkey p := hCkeys a ha
      have h2 : keyOf b ∈ rest.map pkey := ihkeys b hb
      rw [hcon] at h1
      rw [h1] at h2
      exact hpnotin h2
    · rw [crossOrd_append_right]
      exact ⟨hCcross, ihcross⟩
    · intro e he
      rcases List.mem_append.mp he with he | he
      · rw [hCkeys e he]
        simp
      · simp only [List.map_cons]
        exact List.mem_cons.mpr (Or.inr (ihkeys e he))
    · intro pd hpd
      rcases List.mem_append.mp hpd with hpd | hpd
      · obtain ⟨hk, hspec⟩ := hCpend pd hpd
        refine ⟨by rw [hk]; simp, ?_⟩
        rw [pendingSpec_append_iff] at hspec
        rw [pendingSpec_append_iff]
        refine ⟨hspec.1, ?_⟩
        rw [pendingSpec_append_iff]
        refine ⟨hspec.2, pendingSpec_of_ne ?_⟩
        intro e he hcon
        have h2 : keyOf e ∈ rest.map pkey := ihkeys e he
        rw [hcon, hk] at h2
        exact hpnotin h2
      · obtain ⟨hk, hspec⟩ := ihpend pd hpd
        refine ⟨by simp only [List.map_cons]; exact List.mem_cons.mpr (Or.inr hk), ?_⟩
        rw [pendingSpec_append_iff] at hspec
        rw [pendingSpec_append_iff]
        refine ⟨hspec.1, ?_⟩
        rw [pendingSpec_append_iff]
        refine ⟨pendingSpec_of_ne ?_, hspec.2⟩
        intro e he hcon
        have h1 : keyOf e = pkey p := hCkeys e he
        rw [hcon] at h1
        exact hpnotin (h1 ▸ hk)

/-- The run decomposes into the main pass, continuation pass, and
pending drain (definitional). -/
theorem seedRun_eq (enrollments : List Nat) (lbm : List (List LessonData))
    (wd : List Nat) :
    seedProgressEventsForGroup enrollments lbm wd =
      (studentLoop enrollments.length lbm
        (allocateModuleDays (lbm.map List.length) wd) 0 enrollments).events ++
      (continuationLoop (allocateModuleDays (lbm.map List.length) wd)
        (studentLoop enrollments.length lbm
          (allocateModuleDays (lbm.map List.length) wd) 0 enrollments).partials).1 ++
      ((studentLoop enrollments.length lbm
          (allocateModuleDays (lbm.map List.length) wd) 0 enrollments).pendings ++
        (continuationLoop (allocateModuleDays (lbm.map List.length) wd)
          (studentLoop enrollments.length lbm
            (allocateModuleDays (lbm.map List.length) wd) 0 enrollments).partials).2).flatMap
        processPending := rfl

/-- Counterexample for C1: one student (id 7), one module with one
4-question lesson, one working day (offset 1).  Enrollment and lesson
ids are distinct, the working-day list is strictly descending with
offsets ≥ 1 (a realistic calendar), and the pair completes; yet the
emitted timestamps are not causally ordered: the lesson splits
(`(0+0+0) % 10 = 0 < 3`), the continuation falls back to day offset 1
itself, so QUESTION_SHOWN(2) is emitted at hour 10 while
QUESTION_ANSWERED(1) was emitted at hour 11 of the same day. -/
theorem ordering_invariant_counterexample :
    ([7] : List Nat).Nodup ∧
    ((([[c1Lesson]] : List (List LessonData)).flatten).map
      (fun L => L.lessonId)).Nodup ∧
    ([1] : List Nat).Pairwise (fun a b => b < a) ∧
    (∀ x ∈ ([1] : List Nat), 1 ≤ x) ∧
    (∃ e ∈ seedProgressEventsForGroup [7] [[c1Lesson]] [1],
       e.etype = EType.lessonCompleted) ∧
    ¬ ordered (seedProgressEventsForGroup [7] [[c1Lesson]] [1]) := by
  decide

/-- Claim C1 (amended): the emitted timestamps of every
(enrollment, lesson) pair are causally ordered — shown(q) ≤ answered(q)
≤ shown(q+1), every answered ≤ LESSON_COMPLETED ≤ the mastery-check
ASSIGNMENT_COMPLETED — including deferred continuations and mastery
checks, provided enrollment ids and lesson ids are distinct, the
working-day offsets are strictly descending and all ≥ 2 (so every
deferred item lands on a strictly more recent day than its source; the
counterexample shows a day-1 split breaks the invariant), and every
lesson has at most 26 questions (a day's hour budget: a deferred
mastery check fires at hour 12 of the next day, 26 hours after hour 10). -/
theorem ordering_invariant_amended (enrollments : List Nat)
    (lbm : List (List LessonData)) (wd : List Nat)
    (hnd : enrollments.Nodup)
    (hlid : ((lbm.flatten).map (fun L => L.lessonId)).Nodup)
    (hdesc : wd.Pairwise (fun a b => b < a))
    (hmin : ∀ x ∈ wd, 2 ≤ x)
    (hq : ∀ ml ∈ lbm, ∀ L ∈ ml, L.questions.length ≤ 26) :
    ordered (seedProgressEventsForGroup enrollments lbm wd) := by
  rw [seedRun_eq]
  set W := allocateModuleDays (lbm.map List.length) wd with hWdef
  have hw : ∀ k, ((W.getD k []).Pairwise (fun a b => b < a)) ∧
      (∀ x ∈ W.getD k [], 2 ≤ x) := by
    intro k
    by_cases hk : k < W.length
    · have hsub : (W.getD k []).Sublist wd := by
        rw [List.getD_eq_getElem _ _ hk]
        exact allocate_windows_sublist _ _ _ (List.getElem_mem hk)
      exact ⟨List.Pairwise.sublist hsub hdesc, fun x hx => hmin x (hsub.subset hx)⟩
    · rw [List.getD_eq_default _ _ (by omega)]
      exact ⟨List.Pairwise.nil, by simp⟩
  obtain ⟨hord1, hkeys1, hpart1, hpend1, hnd1⟩ :=
    studentLoop_inv enrollments.length lbm W hw hq hlid 0 enrollments hnd
  set M := studentLoop enrollments.length lbm W 0 enrollments with hMdef
  obtain ⟨hord2, hcross12, hkeys2, hpend2⟩ :=
    continuationLoop_inv W M.events (fun k => (hw k).1) M.partials
      (fun p hp => (hpart1 p hp).2) hnd1
  set C := continuationLoop W M.partials with hCdef
  have hPD : ∀ pd ∈ M.pendings ++ C.2, pendingSpec (M.events ++ C.1) pd := by
    intro pd hpd
    rcases List.mem_append.mp hpd with hpd | hpd
    · obtain ⟨-, hspec, hni⟩ := hpend1 pd hpd
      rw [pendingSpec_append_iff]
      refine ⟨hspec, pendingSpec_of_ne ?_⟩
      intro e he hcon
      have h5 := hkeys2 e he
      rw [hcon] at h5
      exact hni h5
    · exact (hpend2 pd hpd).2
  obtain ⟨hord3, hcross3⟩ := pendingDrain_inv (M.events ++ C.1) (M.pendings ++ C.2) hPD
  rw [ordered_append]
  refine ⟨?_, hord3, hcross3⟩
  rw [ordered_append]
  exact ⟨hord1, hord2, hcross12⟩

/-- Witness for C1 (amended) at a concrete input: two students, one
4-question lesson, three working days all ≥ 2, distinct ids. -/
theorem ordering_invariant_amended_witness :
    ordered (seedProgressEventsForGroup [3, 8] [[c1Lesson]] [5, 4, 3]) :=
  ordering_invariant_amended [3, 8] [[c1Lesson]] [5, 4, 3] (by decide) (by decide)
    (by decide) (by decide) (by decide)

end SeedSandbox
